import Mathlib

/-!
Verification of the netidx subscriber/recorder core against its
natural-language specification.

The development shallowly embeds the Rust sources:
  * `netidx-tools/src/recorder.rs` — replay-session state machine and the
    recorder's oversized-batch splitting loop;
  * `src/resolver.rs` — the referral router (`Router::route_batch`);
  * `netidx/src/subscriber/mod.rs` — `Dval::write`;
  * `netidx-netproto/src/value.rs` — the `Value` model: binary encoding,
    equality, hashing, casting and arithmetic.

Machine integers are embedded as `Nat`/`Int` with explicit two's-complement
wrapping; IEEE floats are carried as their bit patterns; byte buffers are
`List Nat`.  Operations provided by external crates (std float arithmetic,
`rust_decimal`, `chrono`, the value literal parser) are threaded through a
record of parameters so every theorem holds for any implementation of them.
-/

namespace NetidxRec

/-- Replay session state, `recorder.rs` lines 194-199. -/
inductive State where
  | Play
  | Pause
  | Tail
deriving DecidableEq, Repr

/-- ASCII lowercasing of a string; models `str::to_lowercase` on the ASCII
keywords compared by the recorder (agrees with it on all ASCII input). -/
def lowerAscii (s : String) : String :=
  String.mk (s.data.map Char.toLower)

/-- ASCII whitespace recognizer, modelling `char::is_whitespace` on the
ASCII range relevant to the recorder's keywords. -/
def isWsp (c : Char) : Bool :=
  c = ' ' || c = '\t' || c = '\n' || c = '\x0d'

/-- Trim whitespace from both ends, modelling `str::trim`. -/
def trimWsp (s : String) : String :=
  String.mk (((s.data.dropWhile isWsp).reverse.dropWhile isWsp).reverse)

/-- Embedding of `impl FromStr for State` (`recorder.rs` lines 201-216):
trim, lowercase, then compare against the three keywords; `none` models
the `bail!` error case. -/
def stateFromStr (s : String) : Option State :=
  let s := lowerAscii (trimWsp s)
  if s = "play" then some State.Play
  else if s = "pause" then some State.Play
  else if s = "tail" then some State.Tail
  else none

/-- The string published to the `state` control value for each state
(`recorder.rs` lines 580-584). -/
def stateStr : State → String
  | State.Play => "play"
  | State.Pause => "pause"
  | State.Tail => "tail"

/-- The fragment of a replay session visible to `set_state`: the current
state and the sequence of updates pushed to the published `state` control
value (modelling `self.controls.state_ctl.update`). -/
structure Session where
  state : State
  stateCtl : List String
deriving DecidableEq, Repr

/-- Embedding of `T::set_state` (`recorder.rs` lines 572-588): the
`(Tail, Play)` pair and equal pairs are no-ops; otherwise the state is
replaced and the control value updated. -/
def setState (t : Session) (st : State) : Session :=
  match t.state, st with
  | State.Tail, State.Play => t
  | s0, s1 =>
    if s0 = s1 then t
    else { state := st, stateCtl := t.stateCtl ++ [stateStr st] }

/-- Modelled from the spec: `ArchiveWriter::add_batch` is in
`netidx-archive`, not under `src/`; per the spec it "errors with
`RecordTooLarge` if the encoded block would exceed 4 GiB".  We model the
success condition as the summed encoded sizes of the items staying within
an abstract limit. -/
def addBatchOk (size : α → Nat) (limit : Nat) (batch : List α) : Bool :=
  (batch.map size).sum ≤ limit

/-- Embedding of the `add_batch` retry loop (`recorder.rs` lines
1301-1318): on `RecordTooLarge` the working batch keeps its first half
(`len >> 1`) and the second half is pushed on the `overflow` stack; on
success the working batch is broadcast and the stack popped.  The `fuel`
argument bounds the number of iterations; `none` means the fuel ran out
before the loop terminated.  Returns the list of broadcast sub-batches in
broadcast order. -/
def splitRetry (size : α → Nat) (limit : Nat) :
    Nat → List α → List (List α) → Option (List (List α))
  | 0, _, _ => none
  | fuel+1, tbatch, overflow =>
    if addBatchOk size limit tbatch then
      match overflow with
      | [] => some [tbatch]
      | b :: rest => (splitRetry size limit fuel b rest).map (tbatch :: ·)
    else
      splitRetry size limit fuel (tbatch.take (tbatch.length / 2))
        (tbatch.drop (tbatch.length / 2) :: overflow)

/-- The retry loop terminates from the given configuration with some fuel. -/
def splitRetryTerminates (size : α → Nat) (limit : Nat)
    (tbatch : List α) (overflow : List (List α)) : Prop :=
  ∃ fuel out, splitRetry size limit fuel tbatch overflow = some out

/-- Potential function used to bound the number of loop iterations. -/
def phi (tbatch : List α) (overflow : List (List α)) : Nat :=
  (2 ^ tbatch.length - 1) + (overflow.map (fun b => 2 ^ b.length - 1)).sum

theorem splitRetry_none_loop (fuel : Nat) :
    splitRetry (fun n : Nat => n) 0 fuel [1] [] = none ∧
      splitRetry (fun n : Nat => n) 0 fuel [] [[1]] = none := by
  induction fuel with
  | zero => exact ⟨rfl, rfl⟩
  | succ n ih =>
    have h1 : splitRetry (fun n : Nat => n) 0 (n+1) [1] [] =
        splitRetry (fun n : Nat => n) 0 n [] [[1]] := rfl
    have h2 : splitRetry (fun n : Nat => n) 0 (n+1) [] [[1]] =
        (splitRetry (fun n : Nat => n) 0 n [1] []).map (List.cons []) := rfl
    refine ⟨?_, ?_⟩
    · rw [h1]; exact ih.2
    · rw [h2, ih.1]; rfl

/-- Helper: `2 ^ a + 2 ^ b ≤ 2 ^ (a + b)` when both exponents are positive. -/
theorem pow_split_le (a b : Nat) (ha : 1 ≤ a) (hb : 1 ≤ b) :
    2 ^ a + 2 ^ b ≤ 2 ^ (a + b) := by
  have h1 : 2 ^ a ≤ 2 ^ (a + b - 1) := Nat.pow_le_pow_right (by norm_num) (by omega)
  have h2 : 2 ^ b ≤ 2 ^ (a + b - 1) := Nat.pow_le_pow_right (by norm_num) (by omega)
  have h3 : 2 ^ (a + b - 1) + 2 ^ (a + b - 1) = 2 ^ (a + b) := by
    have hs : a + b - 1 + 1 = a + b := by omega
    calc 2 ^ (a + b - 1) + 2 ^ (a + b - 1) = 2 ^ (a + b - 1) * 2 := by ring
    _ = 2 ^ (a + b - 1 + 1) := (Nat.pow_succ 2 (a + b - 1)).symm
    _ = 2 ^ (a + b) := by rw [hs]
  omega

/-- Core invariant lemma for the retry loop: when every individual item
fits within the limit, and every stacked sub-batch is nonempty and made of
such items, the loop terminates within `phi + 1` steps and the broadcasts
concatenate to the pending work in order. -/
theorem splitRetry_run (size : α → Nat) (limit : Nat) :
    ∀ fuel (tbatch : List α) (overflow : List (List α)),
      tbatch ≠ [] →
      (∀ x ∈ tbatch, size x ≤ limit) →
      (∀ b ∈ overflow, b ≠ [] ∧ ∀ x ∈ b, size x ≤ limit) →
      phi tbatch overflow < fuel →
      ∃ out, splitRetry size limit fuel tbatch overflow = some out ∧
        out.flatten = tbatch ++ overflow.flatten := by
  intro fuel
  induction fuel with
  | zero => intro t o _ _ _ h; omega
  | succ n ih =>
    intro tbatch overflow htne hsz hov hphi
    have htlen : 1 ≤ tbatch.length := by
      cases tbatch with
      | nil => exact absurd rfl htne
      | cons x xs => simp
    have hpow2 : 2 ≤ 2 ^ tbatch.length := by
      calc (2:ℕ) = 2 ^ 1 := (pow_one 2).symm
      _ ≤ 2 ^ tbatch.length := Nat.pow_le_pow_right (by norm_num) htlen
    by_cases hok : addBatchOk size limit tbatch = true
    · match overflow, hov with
      | [], _ =>
        refine ⟨[tbatch], ?_, by simp⟩
        simp [splitRetry, hok]
      | b :: rest, hov =>
        have hb := hov b (by simp)
        have hrest : ∀ c ∈ rest, c ≠ [] ∧ ∀ x ∈ c, size x ≤ limit := by
          intro c hc; exact hov c (by simp [hc])
        have hphi' : phi b rest < n := by
          have e1 : phi tbatch (b :: rest) = (2 ^ tbatch.length - 1) +
              ((2 ^ b.length - 1) + (rest.map (fun c => 2 ^ c.length - 1)).sum) := by
            simp [phi]
          have e2 : phi b rest = (2 ^ b.length - 1) +
              (rest.map (fun c => 2 ^ c.length - 1)).sum := rfl
          rw [e1] at hphi
          rw [e2]
          omega
        obtain ⟨out, hrun, hflat⟩ := ih b rest hb.1 hb.2 hrest hphi'
        refine ⟨tbatch :: out, ?_, by simp [hflat]⟩
        simp [splitRetry, hok, hrun]
    · have hsum : ¬ (tbatch.map size).sum ≤ limit := by
        simpa [addBatchOk] using hok
      have hlen2 : 2 ≤ tbatch.length := by
        match tbatch, hsz with
        | [], _ => simp at hsum
        | [x], hsz =>
          exact absurd (by simpa using hsz x (by simp)) hsum
        | x :: y :: rest, _ => simp
      set at_ := tbatch.length / 2 with hat
      have hta : (tbatch.take at_).length = at_ := by
        simp only [List.length_take]
        omega
      have htd : (tbatch.drop at_).length = tbatch.length - at_ := by
        simp
      have hsz1 : ∀ x ∈ tbatch.take at_, size x ≤ limit := fun x hx =>
        hsz x (List.mem_of_mem_take hx)
      have hdne : tbatch.drop at_ ≠ [] := by
        intro hnil
        have := congrArg List.length hnil
        simp only [htd, List.length_nil] at this
        omega
      have htkne : tbatch.take at_ ≠ [] := by
        intro hnil
        have := congrArg List.length hnil
        simp only [hta, List.length_nil] at this
        omega
      have hov' : ∀ b ∈ tbatch.drop at_ :: overflow,
          b ≠ [] ∧ ∀ x ∈ b, size x ≤ limit := by
        intro b hb
        rcases List.mem_cons.mp hb with rfl | hb
        · exact ⟨hdne, fun x hx => hsz x (List.mem_of_mem_drop hx)⟩
        · exact hov b hb
      have hphi' : phi (tbatch.take at_) (tbatch.drop at_ :: overflow) < n := by
        have e1 : phi tbatch overflow = (2 ^ tbatch.length - 1) +
            (overflow.map (fun c => 2 ^ c.length - 1)).sum := rfl
        have e2 : phi (tbatch.take at_) (tbatch.drop at_ :: overflow) =
            (2 ^ at_ - 1) + ((2 ^ (tbatch.length - at_) - 1) +
              (overflow.map (fun c => 2 ^ c.length - 1)).sum) := by
          simp [phi, hta, htd]
        have hsplit : 2 ^ at_ + 2 ^ (tbatch.length - at_) ≤ 2 ^ tbatch.length := by
          have hp := pow_split_le at_ (tbatch.length - at_) (by omega) (by omega)
          have heq : at_ + (tbatch.length - at_) = tbatch.length := by omega
          rw [heq] at hp
          exact hp
        have h1 : 1 ≤ 2 ^ at_ := Nat.one_le_two_pow
        have h2 : 1 ≤ 2 ^ (tbatch.length - at_) := Nat.one_le_two_pow
        rw [e1] at hphi
        rw [e2]
        omega
      obtain ⟨out, hrun, hflat⟩ :=
        ih (tbatch.take at_) (tbatch.drop at_ :: overflow) htkne hsz1 hov' hphi'
      refine ⟨out, ?_, ?_⟩
      · simp only [splitRetry, hok, Bool.false_eq_true, if_false]
        exact hrun
      · rw [hflat]
        simp only [List.flatten_cons, ← List.append_assoc, List.take_append_drop]

/-- C2: the spec requires a string trimming case-insensitively to "pause"
to parse as `State::Pause`; the source (`recorder.rs` line 208-209) instead
returns `State::Play` for it.  This theorem evaluates the embedded code at
the failing input `"pause"`. -/
theorem c2_pause_parses_to_play :
    stateFromStr "pause" = some State.Play ∧
      some State.Play ≠ some State.Pause := by
  constructor
  · decide
  · decide

/-- C6: the spec's transition table sends a session in state `Tail` to
`Play` (seeking to `End` first) on `set_state(Play)` and updates the
published state control; the source (`recorder.rs` line 574) makes the
`(Tail, Play)` pair a no-op: the state stays `Tail` and nothing is
published.  By contrast `Pause` transitions to `Play` normally. -/
theorem c6_tail_play_is_noop :
    setState ⟨State.Tail, []⟩ State.Play = ⟨State.Tail, []⟩ ∧
      (setState ⟨State.Tail, []⟩ State.Play).state ≠ State.Play ∧
      setState ⟨State.Pause, []⟩ State.Play = ⟨State.Play, ["play"]⟩ := by
  refine ⟨rfl, ?_, rfl⟩
  decide

/-- C8 counterexample: the claim asserts the retry loop terminates for
every non-empty batch whose `add_batch` call fails with `RecordTooLarge`.
With one item whose encoded size alone exceeds the limit, the loop
alternates forever between the failing singleton and an empty working
batch, so it does not terminate with any amount of fuel. -/
theorem c8_counterexample :
    ([1] : List Nat) ≠ [] ∧
      addBatchOk (fun n : Nat => n) 0 [1] = false ∧
      ¬ splitRetryTerminates (fun n : Nat => n) 0 [1] [] := by
  refine ⟨by decide, by decide, ?_⟩
  rintro ⟨fuel, out, h⟩
  rw [(splitRetry_none_loop fuel).1] at h
  exact Option.noConfusion h

/-- C8 amended: for every non-empty batch whose `add_batch` call fails
with `RecordTooLarge` and in which every single item fits within the
record size limit on its own, the retry loop terminates and the broadcast
sub-batches concatenate to the original batch, so every item is written
and broadcast exactly once in its original order. -/
theorem c8_split_retry_correct (size : α → Nat) (limit : Nat)
    (batch : List α) (hne : batch ≠ [])
    (hfail : addBatchOk size limit batch = false)
    (hfit : ∀ x ∈ batch, size x ≤ limit) :
    ∃ out, splitRetry size limit (2 ^ batch.length) batch [] = some out ∧
      out.flatten = batch := by
  have hphi : phi batch ([] : List (List α)) < 2 ^ batch.length := by
    have h1 : 1 ≤ 2 ^ batch.length := Nat.one_le_two_pow
    simp only [phi, List.map_nil, List.sum_nil]
    omega
  obtain ⟨out, hrun, hflat⟩ :=
    splitRetry_run size limit (2 ^ batch.length) batch [] hne hfit
      (by intro b hb; simp at hb) hphi
  exact ⟨out, hrun, by simpa using hflat⟩

/-- C8 witness: the batch `[1, 1]` with item sizes `1` and limit `1` is
non-empty, fails as a whole, and every item fits on its own. -/
theorem c8_split_retry_correct_witness :
    ∃ out, splitRetry (fun n : Nat => n) 1 (2 ^ ([1, 1] : List Nat).length)
        [1, 1] [] = some out ∧ out.flatten = [1, 1] :=
  c8_split_retry_correct (fun n : Nat => n) 1 [1, 1]
    (by decide) (by decide) (by decide)

end NetidxRec

namespace NetidxRouter

/-- Lexicographic strict order on character lists; models the `Ord`
instance on Rust strings used as `BTreeMap` keys (byte order on UTF-8
coincides with codepoint order). -/
def lexLt : List Char → List Char → Bool
  | [], [] => false
  | [], _ :: _ => true
  | _ :: _, [] => false
  | a :: as, b :: bs => if a < b then true else if b < a then false else lexLt as bs

/-- Strict key order on paths. -/
def strLt (a b : String) : Bool := lexLt a.data b.data

/-- Non-strict key order, as used by the `range((Unbounded, Included(path)))`
bound of `Router::route_batch`. -/
def strLe (a b : String) : Bool := !(strLt b a)

/-- String prefix test; models `str::starts_with` as used at
`resolver.rs` line 102. -/
def pfxOf (a b : String) : Bool := a.data.isPrefixOf b.data

/-- Embedding of the per-request routing loop of `Router::route_batch`
(`resolver.rs` lines 87-121): walk the cached entries with key `≤ path` in
descending order, skip keys that are not prefixes of the path; the first
prefix found decides: unexpired → that referral's bucket, expired → the
default bucket plus a pending cache removal.  The cache is a `BTreeMap`,
modelled as a list of `(key, expiry)` entries sorted ascending by key;
`now < expiry` models `&now < exp`.  Returns the destination bucket
(`none` is the local default) and the keys pushed onto the `gc` list. -/
def routeOne (cached : List (String × Nat)) (now : Nat) (path : String) :
    Option String × List String :=
  match ((cached.filter (fun e => strLe e.1 path)).reverse).find?
      (fun e => pfxOf e.1 path) with
  | none => (none, [])
  | some (p, exp) => if now < exp then (some p, []) else (none, [p])

/-- Embedding of `Router::route_batch` over a whole batch: requests
without a path go to the default bucket; each request with a path is
routed by `routeOne` against the unmodified cache (the source removes the
`gc` keys only after the loop over the batch).  Returns the destination
bucket of each request in submission order, and the cache after the lazy
removal of expired entries. -/
def routeBatch (cached : List (String × Nat)) (now : Nat)
    (batch : List (Option String)) :
    List (Option String) × List (String × Nat) :=
  let dests := batch.map (fun r => match r with
    | none => none
    | some path => (routeOne cached now path).1)
  let gcs := (batch.map (fun r => match r with
    | none => []
    | some path => (routeOne cached now path).2)).flatten
  (dests, cached.filter (fun e => !(gcs.contains e.1)))

/-- Modelled from the spec: `Path::is_parent` (the path-ancestor relation)
is in `netidx-core/src/path.rs`, not under `src/`.  Per the spec a path is
an ancestor of itself, and otherwise an ancestor must be followed by a
path separator within the descendant. -/
def isParentPath (p q : String) : Bool :=
  (p == q) || (if p = "/" then pfxOf "/" q else pfxOf (p ++ "/") q)

/-- Claim-side selector: the entry with the longest key among the cached
entries whose key satisfies the predicate against the request path. -/
def longestEntry (cached : List (String × Nat)) (pred : String → Bool) :
    Option (String × Nat) :=
  cached.foldl (fun acc e =>
    if pred e.1 then
      match acc with
      | none => some e
      | some b => if b.1.length < e.1.length then some e else some b
    else acc) none

/-- Claim-side routing: route to the longest cached entry related to the
path by `pred` when unexpired; when that entry is expired it is removed
and the request falls back to the default; with no related entry the
request goes to the default. -/
def routeSpecWith (pred : String → String → Bool)
    (cached : List (String × Nat)) (now : Nat) (path : String) :
    Option String × List String :=
  match longestEntry cached (fun p => pred p path) with
  | none => (none, [])
  | some (p, exp) => if now < exp then (some p, []) else (none, [p])

theorem lexLt_irrefl : ∀ l : List Char, lexLt l l = false
  | [] => rfl
  | a :: as => by
    simp only [lexLt, if_neg (lt_irrefl a)]
    exact lexLt_irrefl as

theorem lexLt_asymm : ∀ l m : List Char, lexLt l m = true → lexLt m l = false
  | [], [] => by simp [lexLt]
  | [], _ :: _ => fun _ => rfl
  | _ :: _, [] => by simp [lexLt]
  | a :: as, b :: bs => by
    intro h
    by_cases h1 : a < b
    · show lexLt (b :: bs) (a :: as) = false
      simp only [lexLt, if_neg (lt_asymm h1), if_pos h1]
    · by_cases h2 : b < a
      · simp only [lexLt, if_neg h1, if_pos h2] at h
        exact Bool.noConfusion h
      · simp only [lexLt, if_neg h1, if_neg h2] at h
        simp only [lexLt, if_neg h2, if_neg h1]
        exact lexLt_asymm as bs h

theorem pfx_lexLt_eq_false : ∀ l m : List Char,
    l.isPrefixOf m = true → lexLt m l = false
  | [], [] => fun _ => rfl
  | [], _ :: _ => fun _ => rfl
  | _ :: _, [] => by simp [List.isPrefixOf]
  | a :: as, b :: bs => by
    intro h
    simp only [List.isPrefixOf, Bool.and_eq_true, beq_iff_eq] at h
    obtain ⟨rfl, htl⟩ := h
    simp only [lexLt, if_neg (lt_irrefl a)]
    exact pfx_lexLt_eq_false as bs htl

theorem pfx_proper_lexLt : ∀ l m : List Char,
    l.isPrefixOf m = true → l ≠ m → lexLt l m = true
  | [], [] => fun _ h => absurd rfl h
  | [], _ :: _ => fun _ _ => rfl
  | _ :: _, [] => by simp [List.isPrefixOf]
  | a :: as, b :: bs => by
    intro h hne
    simp only [List.isPrefixOf, Bool.and_eq_true, beq_iff_eq] at h
    obtain ⟨rfl, htl⟩ := h
    simp only [lexLt, if_neg (lt_irrefl a)]
    refine pfx_proper_lexLt as bs htl ?_
    intro hcon
    exact hne (by rw [hcon])

theorem pfx_len_lt (a b c : List Char) (ha : a.isPrefixOf c = true)
    (hb : b.isPrefixOf c = true) (hlt : lexLt a b = true) :
    a.length < b.length := by
  have ha' := List.isPrefixOf_iff_prefix.mp ha
  have hb' := List.isPrefixOf_iff_prefix.mp hb
  by_contra hle
  push_neg at hle
  have hba : b <+: a := List.prefix_of_prefix_length_le hb' ha' hle
  have hba' : b.isPrefixOf a = true := List.isPrefixOf_iff_prefix.mpr hba
  by_cases heq : b = a
  · subst heq
    rw [lexLt_irrefl] at hlt
    exact Bool.noConfusion hlt
  · have h1 := pfx_proper_lexLt b a hba' heq
    have h2 := lexLt_asymm b a h1
    rw [h2] at hlt
    exact Bool.noConfusion hlt

/-- Scanning the reversed `q`-filtered list for the first `p`-match is the
same as taking the last `p`-element, when `p` implies `q`. -/
theorem find?_reverse_filter (l : List β) (q p : β → Bool)
    (himp : ∀ e, p e = true → q e = true) :
    ((l.filter q).reverse).find? p = (l.filter p).getLast? := by
  induction l using List.reverseRecOn with
  | nil => rfl
  | append_singleton t a ih =>
    rw [List.filter_append, List.filter_append, List.reverse_append,
      List.find?_append]
    cases hp : p a
    · have e1 : ((List.filter q [a]).reverse).find? p = none := by
        cases hq : q a <;> simp [List.filter_cons, hq, List.find?, hp]
      have e2 : List.filter p [a] = [] := by simp [List.filter_cons, hp]
      rw [e1, e2, List.append_nil, Option.none_or]
      exact ih
    · have hq : q a = true := himp a hp
      have e1 : (List.filter q [a]).reverse = [a] := by
        simp [List.filter_cons, hq]
      have e2 : List.filter p [a] = [a] := by simp [List.filter_cons, hp]
      rw [e1, e2, List.getLast?_concat]
      simp [List.find?, hp]

/-- One step of the claim-side longest-entry selection. -/
def pickLonger (acc : Option (String × Nat)) (e : String × Nat) :
    Option (String × Nat) :=
  match acc with
  | none => some e
  | some b => if b.1.length < e.1.length then some e else some b

theorem longestEntry_eq_foldl_filter (l : List (String × Nat))
    (pred : String → Bool) :
    longestEntry l pred =
      (l.filter (fun e => pred e.1)).foldl pickLonger none := by
  suffices h : ∀ acc, l.foldl (fun acc e =>
        if pred e.1 then
          (match acc with
          | none => some e
          | some b => if b.1.length < e.1.length then some e else some b)
        else acc) acc =
      (l.filter (fun e => pred e.1)).foldl pickLonger acc from h none
  induction l with
  | nil => intro acc; rfl
  | cons a t ih =>
    intro acc
    by_cases hp : pred a.1 = true
    · rw [List.foldl_cons, if_pos hp, List.filter_cons, if_pos hp,
        List.foldl_cons]
      exact ih (pickLonger acc a)
    · rw [List.foldl_cons, if_neg hp, List.filter_cons, if_neg hp]
      exact ih acc

theorem foldl_pickLonger_aux :
    ∀ (m : List (String × Nat)) (b : String × Nat),
      List.Pairwise (fun x y => x.1.length < y.1.length) m →
      (∀ x ∈ m, b.1.length < x.1.length) →
      m.foldl pickLonger (some b) = (b :: m).getLast? := by
  intro m
  induction m with
  | nil => intro b _ _; rfl
  | cons e t ih =>
    intro b hp hall
    have hbe : b.1.length < e.1.length := hall e (by simp)
    have hstep : pickLonger (some b) e = some e := by
      simp [pickLonger, if_pos hbe]
    rw [List.foldl_cons, hstep, List.getLast?_cons_cons]
    exact ih e (List.pairwise_cons.mp hp).2
      (fun x hx => (List.pairwise_cons.mp hp).1 x hx)

/-- On a list whose key lengths strictly increase, the claim-side longest
selection returns the last element. -/
theorem foldl_pickLonger_increasing (m : List (String × Nat))
    (hp : List.Pairwise (fun x y => x.1.length < y.1.length) m) :
    m.foldl pickLonger none = m.getLast? := by
  cases m with
  | nil => rfl
  | cons e t =>
    have hstep : pickLonger none e = some e := rfl
    rw [List.foldl_cons, hstep]
    exact foldl_pickLonger_aux t e (List.pairwise_cons.mp hp).2
      (fun x hx => (List.pairwise_cons.mp hp).1 x hx)

/-- Under the `BTreeMap` key-sortedness invariant, the code's descending
prefix scan picks exactly the longest cached key that is a string prefix
of the path. -/
theorem routeOne_eq_spec (cached : List (String × Nat)) (now : Nat)
    (path : String)
    (hs : List.Pairwise (fun a b => strLt a.1 b.1 = true) cached) :
    routeOne cached now path = routeSpecWith pfxOf cached now path := by
  have himp : ∀ e : String × Nat,
      pfxOf e.1 path = true → strLe e.1 path = true := by
    intro e he
    simp only [strLe, strLt]
    rw [pfx_lexLt_eq_false e.1.data path.data he]
    rfl
  have h1 : ((cached.filter (fun e => strLe e.1 path)).reverse).find?
        (fun e => pfxOf e.1 path)
      = (cached.filter (fun e => pfxOf e.1 path)).getLast? :=
    find?_reverse_filter cached _ _ himp
  have hpair : List.Pairwise (fun x y : String × Nat =>
      x.1.length < y.1.length)
      (cached.filter (fun e => pfxOf e.1 path)) := by
    refine List.Pairwise.imp_of_mem ?_
      (hs.filter (fun e => pfxOf e.1 path))
    intro a b ha hb hab
    have hpa := (List.mem_filter.mp ha).2
    have hpb := (List.mem_filter.mp hb).2
    exact pfx_len_lt a.1.data b.1.data path.data hpa hpb hab
  have h2 : longestEntry cached (fun p => pfxOf p path)
      = (cached.filter (fun e => pfxOf e.1 path)).getLast? := by
    rw [longestEntry_eq_foldl_filter, foldl_pickLonger_increasing _ hpair]
  simp only [routeOne, routeSpecWith, h1, h2]

/-- C7 amended: with the referral cache sorted by key (the `BTreeMap`
invariant), each request with a path goes to the bucket of the longest
cached key that is a string prefix of the path (rather than a path
ancestor) when that entry is unexpired; when the longest such entry is
expired the request goes to the default bucket and the entry is removed
after the batch; requests without a path go to the default bucket. -/
theorem c7_route_by_longest_string_prefix_entry
    (cached : List (String × Nat)) (now : Nat)
    (batch : List (Option String))
    (hs : List.Pairwise (fun a b => strLt a.1 b.1 = true) cached) :
    (routeBatch cached now batch).1 = batch.map (fun r => match r with
      | none => none
      | some path => (routeSpecWith pfxOf cached now path).1) ∧
    (routeBatch cached now batch).2 = cached.filter (fun e =>
      !(((batch.map (fun r => match r with
        | none => []
        | some path => (routeSpecWith pfxOf cached now path).2)).flatten).contains
          e.1)) := by
  have he : ∀ path, routeOne cached now path =
      routeSpecWith pfxOf cached now path :=
    fun path => routeOne_eq_spec cached now path hs
  constructor
  · simp only [routeBatch]
    refine List.map_congr_left ?_
    intro r _
    cases r with
    | none => rfl
    | some path =>
      show (routeOne cached now path).1 = (routeSpecWith pfxOf cached now path).1
      rw [he path]
  · simp only [routeBatch]
    have harg : batch.map (fun r => match r with
        | none => ([] : List String)
        | some path => (routeOne cached now path).2) =
      batch.map (fun r => match r with
        | none => []
        | some path => (routeSpecWith pfxOf cached now path).2) := by
      refine List.map_congr_left ?_
      intro r _
      cases r with
      | none => rfl
      | some path =>
        show (routeOne cached now path).2 =
          (routeSpecWith pfxOf cached now path).2
        rw [he path]
    rw [harg]

/-- C7 witness: a sorted two-entry cache where the longest prefix of the
first request is expired (routed to the default, entry removed) and the
other requests have no owning prefix or no path at all. -/
theorem c7_route_witness :
    (routeBatch [("/a", 5), ("/a/b", 0)] 3
        [some "/a/b/c", none, some "/x"]).1 =
      [some "/a/b/c", none, some "/x"].map (fun r => match r with
        | none => none
        | some path =>
          (routeSpecWith pfxOf [("/a", 5), ("/a/b", 0)] 3 path).1) ∧
    (routeBatch [("/a", 5), ("/a/b", 0)] 3
        [some "/a/b/c", none, some "/x"]).2 =
      [("/a", 5), ("/a/b", 0)].filter (fun e =>
        !((([some "/a/b/c", none, some "/x"].map (fun r => match r with
          | none => []
          | some path =>
            (routeSpecWith pfxOf [("/a", 5), ("/a/b", 0)] 3 path).2)).flatten).contains
            e.1)) :=
  c7_route_by_longest_string_prefix_entry [("/a", 5), ("/a/b", 0)] 3
    [some "/a/b/c", none, some "/x"] (by decide)

/-- C7 counterexample: the claim routes by the longest cached entry that
is a path ancestor; the code (`resolver.rs` line 102) tests only a string
prefix.  With `"/foo"` cached and unexpired, the request for `"/foobar"`
is routed to the `"/foo"` referral bucket although `"/foo"` is not a path
ancestor of `"/foobar"`, where the claim sends it to the default. -/
theorem c7_counterexample :
    routeOne [("/foo", 10)] 0 "/foobar" ≠
        routeSpecWith isParentPath [("/foo", 10)] 0 "/foobar" ∧
      routeOne [("/foo", 10)] 0 "/foobar" = (some "/foo", []) ∧
      routeSpecWith isParentPath [("/foo", 10)] 0 "/foobar" = (none, []) := by
  refine ⟨?_, ?_, ?_⟩ <;> decide

end NetidxRouter

namespace NetidxVal

/-- The 19 type tags of `Typ` (`value.rs` lines 33-54). -/
inductive Typ where
  | U32
  | V32
  | I32
  | Z32
  | U64
  | V64
  | I64
  | Z64
  | F32
  | F64
  | Decimal
  | DateTime
  | Duration
  | Bool
  | String
  | Bytes
  | Result
  | Array
  | Null
deriving DecidableEq, Repr

/-- A `chrono::DateTime<Utc>` as UNIX seconds plus subsecond nanoseconds. -/
structure DT where
  sec : Int
  nano : Nat
deriving DecidableEq, Repr

/-- A `std::time::Duration` as seconds plus subsecond nanoseconds. -/
structure Dur where
  sec : Nat
  nano : Nat
deriving DecidableEq, Repr

/-- The `Value` sum type (`value.rs` lines 323-367).  Numeric payloads are
mathematical integers (well-formedness bounds are in `wfValue`), floats
are carried as their IEEE bit patterns, strings and byte blobs as byte
lists, and a `Decimal` as its 16-byte `rust_decimal` representation read
as a number. -/
inductive Value where
  | U32 (v : Nat)
  | V32 (v : Nat)
  | I32 (v : Int)
  | Z32 (v : Int)
  | U64 (v : Nat)
  | V64 (v : Nat)
  | I64 (v : Int)
  | Z64 (v : Int)
  | F32 (bits : Nat)
  | F64 (bits : Nat)
  | DateTime (dt : DT)
  | Duration (d : Dur)
  | String (s : List Nat)
  | Bytes (b : List Nat)
  | True
  | False
  | Null
  | Ok
  | Error (e : List Nat)
  | Array (elts : List Value)
  | Decimal (d : Nat)

mutual

/-- Structural (Lean-level) equality test on `Value`, used only to build
the `DecidableEq` instance; the semantic `PartialEq` of the source is
`valueEq` below. -/
def veq : Value → Value → Bool
  | .U32 a, .U32 b => a == b
  | .V32 a, .V32 b => a == b
  | .I32 a, .I32 b => a == b
  | .Z32 a, .Z32 b => a == b
  | .U64 a, .U64 b => a == b
  | .V64 a, .V64 b => a == b
  | .I64 a, .I64 b => a == b
  | .Z64 a, .Z64 b => a == b
  | .F32 a, .F32 b => a == b
  | .F64 a, .F64 b => a == b
  | .DateTime a, .DateTime b => a == b
  | .Duration a, .Duration b => a == b
  | .String a, .String b => a == b
  | .Bytes a, .Bytes b => a == b
  | .True, .True => true
  | .False, .False => true
  | .Null, .Null => true
  | .Ok, .Ok => true
  | .Error a, .Error b => a == b
  | .Array a, .Array b => veqList a b
  | .Decimal a, .Decimal b => a == b
  | _, _ => false

def veqList : List Value → List Value → Bool
  | [], [] => true
  | a :: as, b :: bs => veq a b && veqList as bs
  | _, _ => false

end

set_option maxHeartbeats 2000000 in
mutual

theorem veq_iff : ∀ (a b : Value), veq a b = true ↔ a = b
  | a, b => by
    cases a <;> cases b <;> simp [veq]
    exact veqList_iff _ _

theorem veqList_iff : ∀ (a b : List Value), veqList a b = true ↔ a = b
  | [], [] => by simp [veqList]
  | [], _ :: _ => by simp [veqList]
  | _ :: _, [] => by simp [veqList]
  | a :: as, b :: bs => by
    simp [veqList, veq_iff a b, veqList_iff as bs]

end

instance : DecidableEq Value :=
  fun a b => decidable_of_iff (veq a b = true) (veq_iff a b)

mutual

/-- Executable structural size of a `Value`, used as canonical fuel. -/
def vsize : Value → Nat
  | .Array l => 1 + vsizeList l
  | _ => 1

def vsizeList : List Value → Nat
  | [] => 0
  | a :: as => 1 + vsize a + vsizeList as

end

/-- The four arithmetic operators implemented for `Value`. -/
inductive AOp where
  | add
  | sub
  | mul
  | div
deriving DecidableEq, Repr

/-- Rust `as u32` on an integer value: two's-complement truncation. -/
def u32cast (i : Int) : Nat := (i % 2 ^ 32).toNat

/-- Rust `as i32`: two's-complement wrap into the signed 32-bit range. -/
def i32wrap (i : Int) : Int := (i + 2 ^ 31) % 2 ^ 32 - 2 ^ 31

/-- Rust `as u64`. -/
def u64cast (i : Int) : Nat := (i % 2 ^ 64).toNat

/-- Rust `as i64`. -/
def i64wrap (i : Int) : Int := (i + 2 ^ 63) % 2 ^ 64 - 2 ^ 63

/-- The exponent bits of an f32 pattern are all ones and the mantissa is
nonzero: the NaN class. -/
def isNan32 (b : Nat) : Bool := (b / 2 ^ 23) % 2 ^ 8 = 255 && b % 2 ^ 23 ≠ 0

/-- The f32 zero class: everything below the sign bit is zero. -/
def isZero32 (b : Nat) : Bool := b % 2 ^ 31 = 0

/-- The f64 NaN class. -/
def isNan64 (b : Nat) : Bool := (b / 2 ^ 52) % 2 ^ 11 = 2047 && b % 2 ^ 52 ≠ 0

/-- The f64 zero class. -/
def isZero64 (b : Nat) : Bool := b % 2 ^ 63 = 0

/-- IEEE `==` on two f32 bit patterns (no NaN equals anything; the two
zeros are equal; otherwise equal values have equal patterns). -/
def ieeeEq32 (l r : Nat) : Bool :=
  !(isNan32 l || isNan32 r) && (l = r || (isZero32 l && isZero32 r))

/-- IEEE `==` on two f64 bit patterns. -/
def ieeeEq64 (l r : Nat) : Bool :=
  !(isNan64 l || isNan64 r) && (l = r || (isZero64 l && isZero64 r))

/-- ASCII bytes of a literal message string. -/
def asciiBytes (s : String) : List Nat := s.data.map Char.toNat

/-- External primitives used by `Value::cast`, equality and arithmetic.
These operations live outside the sources under scrutiny (std float
arithmetic and conversions, `rust_decimal`, `chrono`, the value literal
parser and the display formatter); every theorem below is quantified over
them, so it holds for any implementation. -/
structure PrimOps where
  parse : List Nat → Except (List Nat) Value
  fmt : Value → List Nat
  fmtF32 : Nat → List Nat
  fmtF64 : Nat → List Nat
  f32op : AOp → Nat → Nat → Nat
  f64op : AOp → Nat → Nat → Nat
  decOp : AOp → Nat → Nat → Option Nat
  decOfNat : Nat → Nat
  decOfInt : Int → Nat
  decTryOfInt : Int → Option Nat
  decTryOfF32 : Nat → Option Nat
  decTryOfF64 : Nat → Option Nat
  decToU32 : Nat → Option Nat
  decToI32 : Nat → Option Int
  decToU64 : Nat → Option Nat
  decToI64 : Nat → Option Int
  decToF32 : Nat → Option Nat
  decToF64 : Nat → Option Nat
  natToF32 : Nat → Nat
  natToF64 : Nat → Nat
  intToF32 : Int → Nat
  intToF64 : Int → Nat
  f32toF64 : Nat → Nat
  f64toF32 : Nat → Nat
  f32AsU32 : Nat → Nat
  f32AsI32 : Nat → Int
  f32AsU64 : Nat → Nat
  f32AsI64 : Nat → Int
  f64AsU32 : Nat → Nat
  f64AsI32 : Nat → Int
  f64AsU64 : Nat → Nat
  f64AsI64 : Nat → Int
  dtFromTs : Int → Option DT
  durDivU32 : Dur → Nat → Option Dur
  durDivF32 : Dur → Nat → Option Dur
  durDivF64 : Dur → Nat → Option Dur
  durSecsF32 : Dur → Nat
  durSecsF64 : Dur → Nat
  durAdd : Dur → Dur → Option Dur
  durSub : Dur → Dur → Option Dur
  dtAddDur : DT → Dur → Option Value
  dtSubDur : DT → Dur → Option Value

/-- `Value::number` (`value.rs` lines 1450-1474). -/
def Value.number : Value → Bool
  | .U32 _ | .V32 _ | .I32 _ | .Z32 _
  | .U64 _ | .V64 _ | .I64 _ | .Z64 _
  | .F32 _ | .F64 _ | .Decimal _ => true
  | .DateTime _ | .Duration _ | .String _ | .Bytes _
  | .True | .False | .Null | .Ok | .Error _ | .Array _ => false

/-- The `cast_number!` macro of `Value::cast` (`value.rs` lines 1249-1285)
instantiated at the eight integer sources, whose mathematical value is
`iv`; `self` is the original value (used by the `String` and `Array`
targets). -/
def castNumFromInt (P : PrimOps) (self : Value) (iv : Int) :
    Typ → Option Value
  | .U32 => some (.U32 (u32cast iv))
  | .V32 => some (.V32 (u32cast iv))
  | .I32 => some (.I32 (i32wrap iv))
  | .Z32 => some (.Z32 (i32wrap iv))
  | .U64 => some (.U64 (u64cast iv))
  | .V64 => some (.V64 (u64cast iv))
  | .I64 => some (.I64 (i64wrap iv))
  | .Z64 => some (.Z64 (i64wrap iv))
  | .F32 => some (.F32 (P.intToF32 iv))
  | .F64 => some (.F64 (P.intToF64 iv))
  | .Decimal => (P.decTryOfInt iv).map Value.Decimal
  | .DateTime => (P.dtFromTs (i64wrap iv)).map Value.DateTime
  | .Duration => some (.Duration ⟨u64cast iv, 0⟩)
  | .Bool => some (if 0 < i64wrap iv then Value.True else Value.False)
  | .String => some (.String (P.fmt self))
  | .Bytes => none
  | .Result => some Value.Ok
  | .Array => some (.Array [self])
  | .Null => some Value.Null

/-- The `cast_number!` macro instantiated at an `F32` source with bit
pattern `bits`. -/
def castNumFromF32 (P : PrimOps) (self : Value) (bits : Nat) :
    Typ → Option Value
  | .U32 => some (.U32 (P.f32AsU32 bits))
  | .V32 => some (.V32 (P.f32AsU32 bits))
  | .I32 => some (.I32 (P.f32AsI32 bits))
  | .Z32 => some (.Z32 (P.f32AsI32 bits))
  | .U64 => some (.U64 (P.f32AsU64 bits))
  | .V64 => some (.V64 (P.f32AsU64 bits))
  | .I64 => some (.I64 (P.f32AsI64 bits))
  | .Z64 => some (.Z64 (P.f32AsI64 bits))
  | .F32 => some (.F32 bits)
  | .F64 => some (.F64 (P.f32toF64 bits))
  | .Decimal => (P.decTryOfF32 bits).map Value.Decimal
  | .DateTime => (P.dtFromTs (P.f32AsI64 bits)).map Value.DateTime
  | .Duration => some (.Duration ⟨P.f32AsU64 bits, 0⟩)
  | .Bool => some (if 0 < P.f32AsI64 bits then Value.True else Value.False)
  | .String => some (.String (P.fmt self))
  | .Bytes => none
  | .Result => some Value.Ok
  | .Array => some (.Array [self])
  | .Null => some Value.Null

/-- The `cast_number!` macro instantiated at an `F64` source. -/
def castNumFromF64 (P : PrimOps) (self : Value) (bits : Nat) :
    Typ → Option Value
  | .U32 => some (.U32 (P.f64AsU32 bits))
  | .V32 => some (.V32 (P.f64AsU32 bits))
  | .I32 => some (.I32 (P.f64AsI32 bits))
  | .Z32 => some (.Z32 (P.f64AsI32 bits))
  | .U64 => some (.U64 (P.f64AsU64 bits))
  | .V64 => some (.V64 (P.f64AsU64 bits))
  | .I64 => some (.I64 (P.f64AsI64 bits))
  | .Z64 => some (.Z64 (P.f64AsI64 bits))
  | .F32 => some (.F32 (P.f64toF32 bits))
  | .F64 => some (.F64 bits)
  | .Decimal => (P.decTryOfF64 bits).map Value.Decimal
  | .DateTime => (P.dtFromTs (P.f64AsI64 bits)).map Value.DateTime
  | .Duration => some (.Duration ⟨P.f64AsU64 bits, 0⟩)
  | .Bool => some (if 0 < P.f64AsI64 bits then Value.True else Value.False)
  | .String => some (.String (P.fmt self))
  | .Bytes => none
  | .Result => some Value.Ok
  | .Array => some (.Array [self])
  | .Null => some Value.Null

/-- The `DateTime` arm of `Value::cast` (`value.rs` lines 1323-1380).
`timestamp()` is the seconds field; note the unsatisfiable
`ts < 0 && ts > u32::MAX` guard of the `U32`/`V32` target, taken verbatim
from the source. -/
def castFromDateTime (P : PrimOps) (dt : DT) : Typ → Option Value
  | .U32 =>
    let ts := dt.sec
    if ts < 0 ∧ ts > (4294967295 : Int) then none
    else some (.U32 (u32cast ts))
  | .V32 =>
    let ts := dt.sec
    if ts < 0 ∧ ts > (4294967295 : Int) then none
    else some (.V32 (u32cast ts))
  | .I32 =>
    let ts := dt.sec
    if ts < -(2 ^ 31 : Int) ∨ ts > (2 ^ 31 - 1 : Int) then none
    else some (.I32 ts)
  | .Z32 =>
    let ts := dt.sec
    if ts < -(2 ^ 31 : Int) ∨ ts > (2 ^ 31 - 1 : Int) then none
    else some (.Z32 ts)
  | .U64 =>
    let ts := dt.sec
    if ts < 0 then none else some (.U64 ts.toNat)
  | .V64 =>
    let ts := dt.sec
    if ts < 0 then none else some (.V64 ts.toNat)
  | .I64 => some (.I64 dt.sec)
  | .Z64 => some (.Z64 dt.sec)
  | .F32 =>
    let dur := P.intToF64 dt.sec
    let dur := P.f64op AOp.add dur
      (P.intToF64 ((dt.sec * 1000000000 + dt.nano).tdiv 1000000000))
    some (.F32 (P.f64toF32 dur))
  | .F64 =>
    let dur := P.intToF64 dt.sec
    let dur := P.f64op AOp.add dur
      (P.intToF64 ((dt.sec * 1000000000 + dt.nano).tdiv 1000000000))
    some (.F64 dur)
  | .DateTime => some (.DateTime dt)
  | .Decimal => none
  | .Duration => none
  | .Bool => none
  | .Bytes => none
  | .Result => some Value.Ok
  | .Array => some (.Array [.DateTime dt])
  | .Null => some Value.Null
  | .String => none

/-- The `Duration` arm of `Value::cast` (`value.rs` lines 1381-1401). -/
def castFromDuration (P : PrimOps) (d : Dur) : Typ → Option Value
  | .U32 => some (.U32 (d.sec % 2 ^ 32))
  | .V32 => some (.V32 (d.sec % 2 ^ 32))
  | .I32 => some (.I32 (i32wrap d.sec))
  | .Z32 => some (.Z32 (i32wrap d.sec))
  | .U64 => some (.U64 d.sec)
  | .V64 => some (.V64 d.sec)
  | .I64 => some (.I64 (i64wrap d.sec))
  | .Z64 => some (.Z64 (i64wrap d.sec))
  | .F32 => some (.F32 (P.durSecsF32 d))
  | .F64 => some (.F64 (P.durSecsF64 d))
  | .Decimal => none
  | .DateTime => none
  | .Duration => some (.Duration d)
  | .Bool => none
  | .Bytes => none
  | .Result => some Value.Ok
  | .Array => some (.Array [.Duration d])
  | .Null => some Value.Null
  | .String => none

/-- The `True | False` arm of `Value::cast` (`value.rs` lines 1402-1425);
`b` is the boolean value. -/
def castFromBool (b : Bool) : Typ → Option Value
  | .U32 => some (.U32 (if b then 1 else 0))
  | .V32 => some (.V32 (if b then 1 else 0))
  | .I32 => some (.I32 (if b then 1 else 0))
  | .Z32 => some (.Z32 (if b then 1 else 0))
  | .U64 => some (.U64 (if b then 1 else 0))
  | .V64 => some (.V64 (if b then 1 else 0))
  | .I64 => some (.I64 (if b then 1 else 0))
  | .Z64 => some (.Z64 (if b then 1 else 0))
  | .F32 => some (.F32 (if b then 1065353216 else 0))
  | .F64 => some (.F64 (if b then 4607182418800017408 else 0))
  | .Decimal => none
  | .DateTime => none
  | .Duration => none
  | .Bool => some (if b then Value.True else Value.False)
  | .Bytes => none
  | .Result => some Value.Ok
  | .Array => some (.Array [if b then Value.True else Value.False])
  | .Null => some Value.Null
  | .String => none

/-- The `Decimal` arm of `Value::cast` (`value.rs` lines 1302-1322). -/
def castFromDecimal (P : PrimOps) (d : Nat) : Typ → Option Value
  | .Decimal => some (.Decimal d)
  | .U32 => (P.decToU32 d).map Value.U32
  | .V32 => (P.decToU32 d).map Value.V32
  | .I32 => (P.decToI32 d).map Value.I32
  | .Z32 => (P.decToI32 d).map Value.Z32
  | .U64 => (P.decToU64 d).map Value.U64
  | .V64 => (P.decToU64 d).map Value.V64
  | .I64 => (P.decToI64 d).map Value.I64
  | .Z64 => (P.decToI64 d).map Value.Z64
  | .F32 => (P.decToF32 d).map Value.F32
  | .F64 => (P.decToF64 d).map Value.F64
  | .String => some (.String (P.fmt (.Decimal d)))
  | .Bool | .Array | .Bytes | .DateTime | .Duration | .Null | .Result => none

/-- Fuelled embedding of `Value::cast` (`value.rs` lines 1248-1433).  The
fuel is an artifact making the two non-structural recursions total: the
`String` source re-parses and casts the parsed value, and an `Array`
source casts its first element.  `sizeOf` fuel (see `cast`) is exhaustive
for every path except re-parsing, which is bounded in the real code by
the parsed literal shrinking. -/
def castF (P : PrimOps) : Nat → Value → Typ → Option Value
  | 0, _, _ => none
  | fuel+1, v, typ =>
    match v with
    | .String s =>
      if typ = Typ.String then some (.String s)
      else ((P.parse s).toOption).bind (fun w => castF P fuel w typ)
    | v =>
      if typ = Typ.String then some (.String (P.fmt v))
      else
        match v with
        | .String s => some (.String s)
        | .Array elts =>
          if typ = Typ.Array then some (.Array elts)
          else (elts.head?).bind (fun w => castF P fuel w typ)
        | .U32 n => castNumFromInt P (.U32 n) n typ
        | .V32 n => castNumFromInt P (.V32 n) n typ
        | .I32 n => castNumFromInt P (.I32 n) n typ
        | .Z32 n => castNumFromInt P (.Z32 n) n typ
        | .U64 n => castNumFromInt P (.U64 n) n typ
        | .V64 n => castNumFromInt P (.V64 n) n typ
        | .I64 n => castNumFromInt P (.I64 n) n typ
        | .Z64 n => castNumFromInt P (.Z64 n) n typ
        | .F32 bits => castNumFromF32 P (.F32 bits) bits typ
        | .F64 bits => castNumFromF64 P (.F64 bits) bits typ
        | .Decimal d => castFromDecimal P d typ
        | .DateTime dt => castFromDateTime P dt typ
        | .Duration d => castFromDuration P d typ
        | .True => castFromBool true typ
        | .False => castFromBool false typ
        | .Bytes b => if typ = Typ.Bytes then some (.Bytes b) else none
        | .Ok => castF P fuel Value.True typ
        | .Error _ => castF P fuel Value.False typ
        | .Null => if typ = Typ.Null then some Value.Null else none

/-- `Value::cast` with the canonical fuel. -/
def cast (P : PrimOps) (v : Value) (typ : Typ) : Option Value :=
  castF P (vsize v + 1) v typ

/-- `cast_to::<f64>` as used by `PartialEq`/`PartialOrd`
(`value.rs` lines 1785-1800): cast to `F64` and extract the bits. -/
def castToF64 (P : PrimOps) (v : Value) : Option Nat :=
  (cast P v Typ.F64).bind (fun w => match w with
    | .F64 b => some b
    | _ => none)

mutual

/-- Embedding of `impl PartialEq for Value` (`value.rs` lines 459-504),
arm for arm: matching integer widths compare payloads, floats identify
all NaNs and both zeros, unlike kinds involving a number are compared by
casting both sides to `f64`, everything else is `false`. -/
def valueEq (P : PrimOps) : Value → Value → Bool
  | .U32 l, .U32 r | .U32 l, .V32 r | .V32 l, .U32 r | .V32 l, .V32 r =>
    l == r
  | .I32 l, .I32 r | .I32 l, .Z32 r | .Z32 l, .I32 r | .Z32 l, .Z32 r =>
    l == r
  | .U64 l, .U64 r | .U64 l, .V64 r | .V64 l, .U64 r | .V64 l, .V64 r =>
    l == r
  | .I64 l, .I64 r | .I64 l, .Z64 r | .Z64 l, .I64 r | .Z64 l, .Z64 r =>
    l == r
  | .F32 l, .F32 r =>
    if isNan32 l && isNan32 r then true
    else if isZero32 l && isZero32 r then true
    else ieeeEq32 l r
  | .F64 l, .F64 r =>
    if isNan64 l && isNan64 r then true
    else if isZero64 l && isZero64 r then true
    else ieeeEq64 l r
  | .Decimal l, .Decimal r => l == r
  | .DateTime l, .DateTime r => l == r
  | .Duration l, .Duration r => l == r
  | .String l, .String r => l == r
  | .Bytes l, .Bytes r => l == r
  | .True, .True => true
  | .False, .False => true
  | .True, .False | .False, .True => false
  | .Null, .Null => true
  | .Ok, .Ok => true
  | .Error l, .Error r => l == r
  | .Ok, .Error _ | .Error _, .Ok => false
  | .Array l, .Array r => valueEqList P l r
  | .Array _, _ | _, .Array _ => false
  | l, r =>
    if l.number || r.number then
      match castToF64 P l, castToF64 P r with
      | some a, some b =>
        if isNan64 a && isNan64 b then true
        else if isZero64 a && isZero64 b then true
        else ieeeEq64 a b
      | _, _ => false
    else false

/-- Slice equality on `Arc<[Value]>`: equal lengths and pairwise equal. -/
def valueEqList (P : PrimOps) : List Value → List Value → Bool
  | [], [] => true
  | a :: as, b :: bs => valueEq P a b && valueEqList P as bs
  | _, _ => false

end

mutual

/-- Embedding of `impl Hash for Value` (`value.rs` lines 369-457) as the
trace of words fed to the hasher: a discriminant prefix followed by the
payload.  NaN floats are normalised by masking to the top exponent bits
and setting the low bit; all other floats hash their raw bits. -/
def valueHash : Value → List Int
  | .U32 v => [0, v]
  | .V32 v => [1, v]
  | .I32 v => [2, v]
  | .Z32 v => [3, v]
  | .U64 v => [4, v]
  | .V64 v => [5, v]
  | .I64 v => [6, v]
  | .Z64 v => [7, v]
  | .F32 bits =>
    [8, if isNan32 bits then ((bits / 2 ^ 24) * 2 ^ 24 + 1 : Nat)
        else bits]
  | .F64 bits =>
    [9, if isNan64 bits then ((bits / 2 ^ 53) * 2 ^ 53 + 1 : Nat)
        else bits]
  | .DateTime dt => [10, dt.sec, dt.nano]
  | .Duration d => [11, d.sec, d.nano]
  | .String s => 12 :: s.map (fun b => (b : Int))
  | .Bytes b => 13 :: b.map (fun x => (x : Int))
  | .True => [14]
  | .False => [15]
  | .Null => [16]
  | .Ok => [17]
  | .Error e => 18 :: e.map (fun b => (b : Int))
  | .Array a => 19 :: valueHashList a
  | .Decimal d => [20, d]

/-- Hash trace of the elements of an array, in order. -/
def valueHashList : List Value → List Int
  | [] => []
  | v :: vs => valueHash v ++ valueHashList vs

end

/-- Big-endian byte decomposition of `n` into `k` bytes, most significant
first; models `put_u32`/`put_u64` and friends from the `bytes` crate. -/
def toBE : Nat → Nat → List Nat
  | 0, _ => []
  | k+1, n => (n / 256 ^ k) :: toBE k (n % 256 ^ k)

/-- Read `k` big-endian bytes off the front of the buffer. -/
def readBE : Nat → List Nat → Option (Nat × List Nat)
  | 0, buf => some (0, buf)
  | _+1, [] => none
  | k+1, b :: rest => (readBE k rest).map (fun p => (b * 256 ^ k + p.1, p.2))

theorem readBE_toBE : ∀ (k n : Nat) (rest : List Nat), n < 256 ^ k →
    readBE k (toBE k n ++ rest) = some (n, rest) := by
  intro k
  induction k with
  | zero =>
    intro n rest h
    simp only [pow_zero, Nat.lt_one_iff] at h
    subst h
    rfl
  | succ k ih =>
    intro n rest h
    have hm : n % 256 ^ k < 256 ^ k :=
      Nat.mod_lt _ (Nat.pos_pow_of_pos k (by norm_num))
    simp only [toBE, List.cons_append, List.append_eq, readBE,
      ih (n % 256 ^ k) rest hm, Option.map_some']
    have hdm := Nat.div_add_mod n (256 ^ k)
    rw [Nat.mul_comm] at hdm
    rw [hdm]

/-- Fuelled LEB128 loop; the fuel only needs to exceed the number of
7-bit groups, see `encodeVarint`. -/
def encodeVarintF : Nat → Nat → List Nat
  | 0, _ => []
  | fuel+1, n =>
    if n < 128 then [n] else (n % 128 + 128) :: encodeVarintF fuel (n / 128)

/-- Modelled from the spec: LEB128 varint encoding
(`netidx-core/src/pack.rs` is not under `src/`; the spec states that
variable-length integer fields use LEB128). -/
def encodeVarint (n : Nat) : List Nat := encodeVarintF (n + 1) n

/-- Modelled from the spec: LEB128 varint decoding. -/
def decodeVarint : List Nat → Option (Nat × List Nat)
  | [] => none
  | b :: rest =>
    if b < 128 then some (b, rest)
    else (decodeVarint rest).map (fun p => (p.1 * 128 + (b - 128), p.2))

theorem decodeVarint_encodeVarintF :
    ∀ (fuel n : Nat), n < fuel → ∀ rest,
      decodeVarint (encodeVarintF fuel n ++ rest) = some (n, rest) := by
  intro fuel
  induction fuel with
  | zero => intro n h; omega
  | succ f ih =>
    intro n h rest
    by_cases hn : n < 128
    · rw [encodeVarintF, if_pos hn]
      simp [decodeVarint, hn]
    · rw [encodeVarintF, if_neg hn]
      have hb : ¬ n % 128 + 128 < 128 := by omega
      have hdiv : n / 128 < f := by
        have := Nat.div_lt_self (show 0 < n by omega) (show 1 < 128 by norm_num)
        omega
      have hrec := ih (n / 128) hdiv rest
      simp only [List.cons_append, List.append_eq, decodeVarint, if_neg hb,
        hrec, Option.map_some']
      have heq : n / 128 * 128 + (n % 128 + 128 - 128) = n := by
        have := Nat.div_add_mod n 128
        omega
      rw [heq]

theorem decodeVarint_encodeVarint (n : Nat) (rest : List Nat) :
    decodeVarint (encodeVarint n ++ rest) = some (n, rest) :=
  decodeVarint_encodeVarintF (n + 1) n (by omega) rest

theorem encodeVarint_length_pos (n : Nat) : 1 ≤ (encodeVarint n).length := by
  rw [encodeVarint, encodeVarintF]
  by_cases hn : n < 128
  · rw [if_pos hn]; simp
  · rw [if_neg hn]; simp

/-- Modelled from the spec: zig-zag encoding of signed integers
(`pack::i32_zz` / `pack::i64_zz`). -/
def zz (i : Int) : Nat := if 0 ≤ i then 2 * i.toNat else 2 * (-i).toNat - 1

/-- Modelled from the spec: zig-zag decoding
(`pack::i32_uzz` / `pack::i64_uzz`). -/
def uzz (n : Nat) : Int :=
  if n % 2 = 0 then ((n / 2 : Nat) : Int) else -(((n : Int) + 1) / 2)

theorem uzz_zz (i : Int) : uzz (zz i) = i := by
  by_cases h : 0 ≤ i
  · have ht : (i.toNat : Int) = i := Int.toNat_of_nonneg h
    simp only [zz, if_pos h, uzz]
    rw [if_pos (by omega)]
    have : 2 * i.toNat / 2 = i.toNat := by omega
    rw [this, ht]
  · have hm : 1 ≤ (-i).toNat := by omega
    simp only [zz, if_neg h, uzz]
    rw [if_neg (by omega)]
    have h1 : ((2 * (-i).toNat - 1 : Nat) : Int) + 1 = 2 * ((-i).toNat : Int) := by
      omega
    rw [h1]
    have h2 : 2 * ((-i).toNat : Int) / 2 = ((-i).toNat : Int) := by omega
    rw [h2]
    omega

/-- Sign extension of a 32-bit two's-complement pattern. -/
def fromTwos32 (m : Nat) : Int := if m < 2 ^ 31 then m else (m : Int) - 2 ^ 32

/-- Sign extension of a 64-bit two's-complement pattern. -/
def fromTwos64 (m : Nat) : Int := if m < 2 ^ 63 then m else (m : Int) - 2 ^ 64

theorem fromTwos32_u32cast (v : Int) (h1 : -(2 ^ 31) ≤ v) (h2 : v < 2 ^ 31) :
    fromTwos32 (u32cast v) = v := by
  simp only [fromTwos32, u32cast]
  omega

theorem fromTwos64_u64cast (v : Int) (h1 : -(2 ^ 63) ≤ v) (h2 : v < 2 ^ 63) :
    fromTwos64 (u64cast v) = v := by
  simp only [fromTwos64, u64cast]
  omega

theorem u32cast_lt (v : Int) : u32cast v < 2 ^ 32 := by
  simp only [u32cast]
  omega

theorem u64cast_lt (v : Int) : u64cast v < 2 ^ 64 := by
  simp only [u64cast]
  omega

theorem zz_lt_32 (v : Int) (h1 : -(2 ^ 31) ≤ v) (h2 : v < 2 ^ 31) :
    zz v < 2 ^ 32 := by
  simp only [zz]
  split <;> omega

theorem zz_lt_64 (v : Int) (h1 : -(2 ^ 63) ≤ v) (h2 : v < 2 ^ 63) :
    zz v < 2 ^ 64 := by
  simp only [zz]
  split <;> omega

/-- Length-prefixed byte payload decoding, modelling the `Pack` impls of
`Chars` and `Bytes` (varint length followed by the raw bytes). -/
def readBytes (buf : List Nat) : Option (List Nat × List Nat) :=
  (decodeVarint buf).bind (fun p =>
    if p.1 ≤ p.2.length then some (p.2.take p.1, p.2.drop p.1) else none)

theorem readBytes_encode (s rest : List Nat) :
    readBytes (encodeVarint s.length ++ (s ++ rest)) = some (s, rest) := by
  simp only [readBytes, decodeVarint_encodeVarint, Option.some_bind]
  rw [if_pos (by simp)]
  rw [List.take_left, List.drop_left]

mutual

/-- Embedding of `impl Pack for Value :: encode` (`value.rs` lines
940-1019).  The `DateTime`, `Duration` and `Decimal` payload encodings
are modelled from the spec (their `Pack` impls are in `netidx-core`, not
under `src/`): 8-byte seconds plus 4-byte nanoseconds for timestamps and
durations, and the fixed 16-byte `rust_decimal` representation. -/
def encodeValue : Value → List Nat
  | .U32 v => 0 :: toBE 4 v
  | .V32 v => 1 :: encodeVarint v
  | .I32 v => 2 :: toBE 4 (u32cast v)
  | .Z32 v => 3 :: encodeVarint (zz v)
  | .U64 v => 4 :: toBE 8 v
  | .V64 v => 5 :: encodeVarint v
  | .I64 v => 6 :: toBE 8 (u64cast v)
  | .Z64 v => 7 :: encodeVarint (zz v)
  | .F32 bits => 8 :: toBE 4 bits
  | .F64 bits => 9 :: toBE 8 bits
  | .DateTime dt => 10 :: (toBE 8 (u64cast dt.sec) ++ toBE 4 dt.nano)
  | .Duration d => 11 :: (toBE 8 d.sec ++ toBE 4 d.nano)
  | .String s => 12 :: (encodeVarint s.length ++ s)
  | .Bytes b => 13 :: (encodeVarint b.length ++ b)
  | .True => [14]
  | .False => [15]
  | .Null => [16]
  | .Ok => [17]
  | .Error e => 18 :: (encodeVarint e.length ++ e)
  | .Array elts => 19 :: (encodeVarint elts.length ++ encodeValueList elts)
  | .Decimal d => 20 :: toBE 16 d

/-- Concatenated encodings of the array elements, in order. -/
def encodeValueList : List Value → List Nat
  | [] => []
  | v :: vs => encodeValue v ++ encodeValueList vs

end

mutual

/-- Embedding of `impl Pack for Value :: decode` (`value.rs` lines
1021-1053), dispatching on the tag byte.  The fuel bounds the array
nesting depth; `decodeValue` instantiates it with the buffer length,
which always suffices. -/
def decodeF : Nat → List Nat → Option (Value × List Nat)
  | 0, _ => none
  | fuel+1, buf =>
    match buf with
    | [] => none
    | tag :: rest =>
      match tag with
      | 0 => (readBE 4 rest).map (fun p => (.U32 p.1, p.2))
      | 1 => (decodeVarint rest).map (fun p => (.V32 (p.1 % 2 ^ 32), p.2))
      | 2 => (readBE 4 rest).map (fun p => (.I32 (fromTwos32 p.1), p.2))
      | 3 => (decodeVarint rest).map (fun p => (.Z32 (uzz (p.1 % 2 ^ 32)), p.2))
      | 4 => (readBE 8 rest).map (fun p => (.U64 p.1, p.2))
      | 5 => (decodeVarint rest).map (fun p => (.V64 p.1, p.2))
      | 6 => (readBE 8 rest).map (fun p => (.I64 (fromTwos64 p.1), p.2))
      | 7 => (decodeVarint rest).map (fun p => (.Z64 (uzz p.1), p.2))
      | 8 => (readBE 4 rest).map (fun p => (.F32 p.1, p.2))
      | 9 => (readBE 8 rest).map (fun p => (.F64 p.1, p.2))
      | 10 => (readBE 8 rest).bind (fun p => (readBE 4 p.2).map
          (fun q => (.DateTime ⟨fromTwos64 p.1, q.1⟩, q.2)))
      | 11 => (readBE 8 rest).bind (fun p => (readBE 4 p.2).map
          (fun q => (.Duration ⟨p.1, q.1⟩, q.2)))
      | 12 => (readBytes rest).map (fun p => (.String p.1, p.2))
      | 13 => (readBytes rest).map (fun p => (.Bytes p.1, p.2))
      | 14 => some (.True, rest)
      | 15 => some (.False, rest)
      | 16 => some (.Null, rest)
      | 17 => some (.Ok, rest)
      | 18 => (readBytes rest).map (fun p => (.Error p.1, p.2))
      | 19 => (decodeVarint rest).bind (fun p =>
          (decodeListF fuel p.1 p.2).map (fun q => (.Array q.1, q.2)))
      | 20 => (readBE 16 rest).map (fun p => (.Decimal p.1, p.2))
      | _ => none

/-- Decode `len` consecutive values.  The fuel is consumed per decoded
element so the mutual recursion is structural on it. -/
def decodeListF : Nat → Nat → List Nat → Option (List Value × List Nat)
  | _, 0, buf => some ([], buf)
  | 0, _+1, _ => none
  | fuel+1, len+1, buf =>
    (decodeF fuel buf).bind (fun p =>
      (decodeListF fuel len p.2).map (fun q => (p.1 :: q.1, q.2)))

end

/-- `decode` on a fresh buffer: the buffer length bounds the nesting. -/
def decodeValue (buf : List Nat) : Option (Value × List Nat) :=
  decodeF buf.length buf

mutual

/-- Well-formedness: every machine-integer payload is within its width. -/
def wfValue : Value → Bool
  | .U32 v | .V32 v => decide (v < 2 ^ 32)
  | .I32 v | .Z32 v => decide (-(2 ^ 31) ≤ v) && decide (v < 2 ^ 31)
  | .U64 v | .V64 v => decide (v < 2 ^ 64)
  | .I64 v | .Z64 v => decide (-(2 ^ 63) ≤ v) && decide (v < 2 ^ 63)
  | .F32 b => decide (b < 2 ^ 32)
  | .F64 b => decide (b < 2 ^ 64)
  | .DateTime dt => decide (-(2 ^ 63) ≤ dt.sec) && decide (dt.sec < 2 ^ 63)
      && decide (dt.nano < 2 ^ 32)
  | .Duration d => decide (d.sec < 2 ^ 64) && decide (d.nano < 2 ^ 32)
  | .String s | .Bytes s | .Error s => s.all (fun b => decide (b < 256))
  | .True | .False | .Null | .Ok => true
  | .Array l => wfValueList l
  | .Decimal d => decide (d < 2 ^ 128)

def wfValueList : List Value → Bool
  | [] => true
  | v :: vs => wfValue v && wfValueList vs

end

mutual

/-- Fuel needed by `decodeF` to decode the encoding of a value. -/
def needF : Value → Nat
  | .Array l => 1 + needL l
  | _ => 1

/-- Fuel needed by `decodeListF` to decode the element encodings. -/
def needL : List Value → Nat
  | [] => 0
  | v :: vs => 1 + max (needF v) (needL vs)

end

theorem encodeValue_length_pos : ∀ (v : Value), 1 ≤ (encodeValue v).length := by
  intro v
  cases v <;> simp [encodeValue]

mutual

theorem needF_le_encLen : ∀ (v : Value), needF v ≤ (encodeValue v).length
  | .Array l => by
    have h1 := needL_le_encLen l
    have h2 := encodeVarint_length_pos l.length
    simp only [needF, encodeValue, List.length_cons, List.length_append]
    omega
  | .U32 _ | .V32 _ | .I32 _ | .Z32 _ | .U64 _ | .V64 _ | .I64 _ | .Z64 _
  | .F32 _ | .F64 _ | .DateTime _ | .Duration _ | .String _ | .Bytes _
  | .True | .False | .Null | .Ok | .Error _ | .Decimal _ => by
    simp [needF, encodeValue]

theorem needL_le_encLen : ∀ (l : List Value),
    needL l ≤ (encodeValueList l).length + 1
  | [] => by simp [needL, encodeValueList]
  | v :: vs => by
    have h1 := needF_le_encLen v
    have h2 := needL_le_encLen vs
    have h3 := encodeValue_length_pos v
    simp only [needL, encodeValueList, List.length_append]
    omega

end

mutual

theorem decodeF_encode : ∀ (v : Value) (fuel : Nat) (rest : List Nat),
    wfValue v = true → needF v ≤ fuel →
    decodeF fuel (encodeValue v ++ rest) = some (v, rest)
  | v, fuel, rest => by
    intro hwf hneed
    have hpos : 1 ≤ needF v := by cases v <;> simp [needF]
    obtain ⟨f, rfl⟩ : ∃ f, fuel = f + 1 := ⟨fuel - 1, by omega⟩
    cases v with
    | U32 n =>
      simp only [wfValue, decide_eq_true_eq] at hwf
      simp only [encodeValue, List.cons_append, decodeF]
      rw [readBE_toBE 4 n rest (by norm_num at hwf ⊢; omega)]
      rfl
    | V32 n =>
      simp only [wfValue, decide_eq_true_eq] at hwf
      simp only [encodeValue, List.cons_append, decodeF,
        decodeVarint_encodeVarint, Option.map_some']
      rw [Nat.mod_eq_of_lt hwf]
    | I32 n =>
      simp only [wfValue, Bool.and_eq_true, decide_eq_true_eq] at hwf
      simp only [encodeValue, List.cons_append, decodeF]
      rw [readBE_toBE 4 (u32cast n) rest (by have := u32cast_lt n; norm_num at this ⊢; omega)]
      simp only [Option.map_some']
      rw [fromTwos32_u32cast n hwf.1 hwf.2]
    | Z32 n =>
      simp only [wfValue, Bool.and_eq_true, decide_eq_true_eq] at hwf
      simp only [encodeValue, List.cons_append, decodeF,
        decodeVarint_encodeVarint, Option.map_some']
      rw [Nat.mod_eq_of_lt (zz_lt_32 n hwf.1 hwf.2), uzz_zz]
    | U64 n =>
      simp only [wfValue, decide_eq_true_eq] at hwf
      simp only [encodeValue, List.cons_append, decodeF]
      rw [readBE_toBE 8 n rest (by norm_num at hwf ⊢; omega)]
      rfl
    | V64 n =>
      simp only [encodeValue, List.cons_append, decodeF,
        decodeVarint_encodeVarint, Option.map_some']
    | I64 n =>
      simp only [wfValue, Bool.and_eq_true, decide_eq_true_eq] at hwf
      simp only [encodeValue, List.cons_append, decodeF]
      rw [readBE_toBE 8 (u64cast n) rest (by have := u64cast_lt n; norm_num at this ⊢; omega)]
      simp only [Option.map_some']
      rw [fromTwos64_u64cast n hwf.1 hwf.2]
    | Z64 n =>
      simp only [wfValue, Bool.and_eq_true, decide_eq_true_eq] at hwf
      simp only [encodeValue, List.cons_append, decodeF,
        decodeVarint_encodeVarint, Option.map_some']
      rw [uzz_zz]
    | F32 b =>
      simp only [wfValue, decide_eq_true_eq] at hwf
      simp only [encodeValue, List.cons_append, decodeF]
      rw [readBE_toBE 4 b rest (by norm_num at hwf ⊢; omega)]
      rfl
    | F64 b =>
      simp only [wfValue, decide_eq_true_eq] at hwf
      simp only [encodeValue, List.cons_append, decodeF]
      rw [readBE_toBE 8 b rest (by norm_num at hwf ⊢; omega)]
      rfl
    | DateTime dt =>
      simp only [wfValue, Bool.and_eq_true, decide_eq_true_eq] at hwf
      simp only [encodeValue, List.cons_append, List.append_assoc, decodeF]
      rw [readBE_toBE 8 (u64cast dt.sec) _
        (by have := u64cast_lt dt.sec; norm_num at this ⊢; omega)]
      simp only [Option.some_bind]
      rw [readBE_toBE 4 dt.nano rest (by norm_num at hwf ⊢; omega)]
      simp only [Option.map_some']
      rw [fromTwos64_u64cast dt.sec hwf.1.1 hwf.1.2]
    | Duration d =>
      simp only [wfValue, Bool.and_eq_true, decide_eq_true_eq] at hwf
      simp only [encodeValue, List.cons_append, List.append_assoc, decodeF]
      rw [readBE_toBE 8 d.sec _ (by norm_num at hwf ⊢; omega)]
      simp only [Option.some_bind]
      rw [readBE_toBE 4 d.nano rest (by norm_num at hwf ⊢; omega)]
      rfl
    | String s =>
      simp only [encodeValue, List.cons_append, List.append_assoc, decodeF,
        readBytes_encode, Option.map_some']
    | Bytes b =>
      simp only [encodeValue, List.cons_append, List.append_assoc, decodeF,
        readBytes_encode, Option.map_some']
    | True => rfl
    | False => rfl
    | Null => rfl
    | Ok => rfl
    | Error e =>
      simp only [encodeValue, List.cons_append, List.append_assoc, decodeF,
        readBytes_encode, Option.map_some']
    | Array elts =>
      have hwl : wfValueList elts = true := by
        simpa [wfValue] using hwf
      have hnl : needL elts ≤ f := by
        simp only [needF] at hneed
        omega
      simp only [encodeValue, List.cons_append, List.append_assoc, decodeF,
        decodeVarint_encodeVarint, Option.some_bind]
      rw [decodeListF_encode elts f rest hwl hnl]
      rfl
    | Decimal d =>
      simp only [wfValue, decide_eq_true_eq] at hwf
      simp only [encodeValue, List.cons_append, decodeF]
      rw [readBE_toBE 16 d rest (by norm_num at hwf ⊢; omega)]
      rfl

theorem decodeListF_encode : ∀ (l : List Value) (fuel : Nat) (rest : List Nat),
    wfValueList l = true → needL l ≤ fuel →
    decodeListF fuel l.length (encodeValueList l ++ rest) = some (l, rest)
  | [], fuel, rest => by
    intro _ _
    simp [encodeValueList, decodeListF]
  | v :: vs, fuel, rest => by
    intro hwf hneed
    simp only [wfValueList, Bool.and_eq_true] at hwf
    have hmax : 1 + max (needF v) (needL vs) ≤ fuel := by
      simpa [needL] using hneed
    obtain ⟨f, rfl⟩ : ∃ f, fuel = f + 1 := ⟨fuel - 1, by omega⟩
    simp only [List.length_cons, encodeValueList, List.append_assoc,
      decodeListF]
    rw [decodeF_encode v f (encodeValueList vs ++ rest) hwf.1 (by omega)]
    simp only [Option.some_bind]
    rw [decodeListF_encode vs f rest hwf.2 (by omega)]
    rfl

end

/-- Round trip of the binary codec on well-formed values. -/
theorem decodeValue_encodeValue (v : Value) (h : wfValue v = true) :
    decodeValue (encodeValue v) = some (v, []) := by
  have hlen : needF v ≤ (encodeValue v).length := needF_le_encLen v
  have hrt := decodeF_encode v (encodeValue v).length [] h hlen
  rw [List.append_nil] at hrt
  exact hrt

set_option maxHeartbeats 4000000 in
mutual

/-- The source equality relation is reflexive. -/
theorem valueEq_refl : ∀ (P : PrimOps) (v : Value), valueEq P v v = true
  | P, .U32 n => by simp [valueEq]
  | P, .V32 n => by simp [valueEq]
  | P, .I32 n => by simp [valueEq]
  | P, .Z32 n => by simp [valueEq]
  | P, .U64 n => by simp [valueEq]
  | P, .V64 n => by simp [valueEq]
  | P, .I64 n => by simp [valueEq]
  | P, .Z64 n => by simp [valueEq]
  | P, .F32 b => by
    by_cases hn : isNan32 b
    · simp [valueEq, hn]
    · by_cases hz : isZero32 b
      · simp [valueEq, hn, hz]
      · simp [valueEq, ieeeEq32, hn, hz]
  | P, .F64 b => by
    by_cases hn : isNan64 b
    · simp [valueEq, hn]
    · by_cases hz : isZero64 b
      · simp [valueEq, hn, hz]
      · simp [valueEq, ieeeEq64, hn, hz]
  | P, .DateTime dt => by simp [valueEq]
  | P, .Duration d => by simp [valueEq]
  | P, .String s => by simp [valueEq]
  | P, .Bytes b => by simp [valueEq]
  | P, .True => by simp [valueEq]
  | P, .False => by simp [valueEq]
  | P, .Null => by simp [valueEq]
  | P, .Ok => by simp [valueEq]
  | P, .Error e => by simp [valueEq]
  | P, .Array l => by
    simp only [valueEq]
    exact valueEqList_refl P l
  | P, .Decimal d => by simp [valueEq]

theorem valueEqList_refl : ∀ (P : PrimOps) (l : List Value),
    valueEqList P l l = true
  | _, [] => rfl
  | P, v :: vs => by
    simp [valueEqList, valueEq_refl P v, valueEqList_refl P vs]

end

/-- C1: binary round trip of values.  For every well-formed value, with
any implementation of the external primitives, decoding the encoding
succeeds, consumes the whole buffer, and yields a value equal to the
original under the source equality relation. -/
theorem c1_binary_roundtrip (P : PrimOps) (v : Value)
    (h : wfValue v = true) :
    ∃ w, decodeValue (encodeValue v) = some (w, []) ∧
      valueEq P w v = true :=
  ⟨v, decodeValue_encodeValue v h, valueEq_refl P v⟩

/-- A trivial instantiation of the external primitives, used to evaluate
theorems with hypotheses at concrete inputs. -/
def defaultPrims : PrimOps where
  parse _ := Except.error []
  fmt _ := []
  fmtF32 _ := []
  fmtF64 _ := []
  f32op _ _ _ := 0
  f64op _ _ _ := 0
  decOp _ _ _ := none
  decOfNat _ := 0
  decOfInt _ := 0
  decTryOfInt _ := none
  decTryOfF32 _ := none
  decTryOfF64 _ := none
  decToU32 _ := none
  decToI32 _ := none
  decToU64 _ := none
  decToI64 _ := none
  decToF32 _ := none
  decToF64 _ := none
  natToF32 _ := 0
  natToF64 _ := 0
  intToF32 _ := 0
  intToF64 _ := 0
  f32toF64 _ := 0
  f64toF32 _ := 0
  f32AsU32 _ := 0
  f32AsI32 _ := 0
  f32AsU64 _ := 0
  f32AsI64 _ := 0
  f64AsU32 _ := 0
  f64AsI32 _ := 0
  f64AsU64 _ := 0
  f64AsI64 _ := 0
  dtFromTs _ := none
  durDivU32 _ _ := none
  durDivF32 _ _ := none
  durDivF64 _ _ := none
  durSecsF32 _ := 0
  durSecsF64 _ := 0
  durAdd _ _ := none
  durSub _ _ := none
  dtAddDur _ _ := none
  dtSubDur _ _ := none

/-- C1 witness: a nested heterogeneously-typed array containing a NaN
f64, a nested array, a string, and a zig-zag negative integer. -/
theorem c1_binary_roundtrip_witness :
    wfValue (Value.Array [Value.F64 9221120237041090561,
      Value.Array [Value.U32 3, Value.Null],
      Value.String [104, 105], Value.Z32 (-5)]) = true ∧
    ∃ w, decodeValue (encodeValue (Value.Array [Value.F64 9221120237041090561,
      Value.Array [Value.U32 3, Value.Null],
      Value.String [104, 105], Value.Z32 (-5)])) = some (w, []) ∧
      valueEq defaultPrims w (Value.Array [Value.F64 9221120237041090561,
        Value.Array [Value.U32 3, Value.Null],
        Value.String [104, 105], Value.Z32 (-5)]) = true :=
  ⟨by decide, c1_binary_roundtrip defaultPrims _ (by decide)⟩

/-- C4: the spec claims `a == b` implies `hash(a) == hash(b)`, in
particular for `+0`/`-0`.  In the source `PartialEq` identifies the two
f64 zeros (and all numeric representations of the same number), but
`Hash` feeds the raw bits (and a per-constructor discriminant) to the
hasher, so equal values hash differently: `F64(0.0) == F64(-0.0)` with
different hash traces, and `U32(0) == V32(0)` with different
discriminant prefixes. -/
theorem c4_hash_eq_incoherent :
    valueEq defaultPrims (Value.F64 0) (Value.F64 (2 ^ 63)) = true ∧
    valueHash (Value.F64 0) ≠ valueHash (Value.F64 (2 ^ 63)) ∧
    valueEq defaultPrims (Value.U32 0) (Value.V32 0) = true ∧
    valueHash (Value.U32 0) ≠ valueHash (Value.V32 0) := by
  refine ⟨?_, ?_, ?_, ?_⟩ <;> decide

/-- C10: casting a `DateTime` to `U32`/`V32` always succeeds with the
seconds truncated to `u32`, because the range guard
`ts < 0 && ts > u32::MAX` is unsatisfiable; casting to `U64` fails for
negative timestamps. -/
theorem c10_datetime_cast_u32_total (P : PrimOps) (dt : DT) :
    cast P (Value.DateTime dt) Typ.U32 = some (Value.U32 (u32cast dt.sec)) ∧
    cast P (Value.DateTime dt) Typ.V32 = some (Value.V32 (u32cast dt.sec)) ∧
    (dt.sec < 0 → cast P (Value.DateTime dt) Typ.U64 = none) := by
  refine ⟨?_, ?_, fun hneg => ?_⟩
  · show castF P (vsize (Value.DateTime dt) + 1) (Value.DateTime dt) Typ.U32 = _
    simp only [vsize, castF, castFromDateTime]
    rw [if_neg (by decide), if_neg (by omega)]
  · show castF P (vsize (Value.DateTime dt) + 1) (Value.DateTime dt) Typ.V32 = _
    simp only [vsize, castF, castFromDateTime]
    rw [if_neg (by decide), if_neg (by omega)]
  · show castF P (vsize (Value.DateTime dt) + 1) (Value.DateTime dt) Typ.U64 = none
    simp only [vsize, castF, castFromDateTime]
    rw [if_neg (by decide), if_pos hneg]

/-- C10 witness: the timestamp `-5` seconds casts to `U32 4294967291`
(two's-complement truncation) while the `U64` cast fails. -/
theorem c10_datetime_cast_witness :
    cast defaultPrims (Value.DateTime ⟨-5, 0⟩) Typ.U32 =
      some (Value.U32 4294967291) ∧
    cast defaultPrims (Value.DateTime ⟨-5, 0⟩) Typ.U64 = none := by
  have h := c10_datetime_cast_u32_total defaultPrims ⟨-5, 0⟩
  refine ⟨?_, h.2.2 (by decide)⟩
  rw [h.1]
  decide

/-- The message of the division-by-zero catch handler. -/
def errDivZero : List Nat := asciiBytes "can\x27t divide by zero"

/-- `Wrapping<u32>` arithmetic; `none` models the division-by-zero
unwinding. -/
def u32op : AOp → Nat → Nat → Option Nat
  | .add, l, r => some ((l + r) % 2 ^ 32)
  | .sub, l, r => some ((l + 2 ^ 32 - r) % 2 ^ 32)
  | .mul, l, r => some ((l * r) % 2 ^ 32)
  | .div, l, r => if r = 0 then none else some (l / r)

/-- `Wrapping<u64>` arithmetic. -/
def u64op : AOp → Nat → Nat → Option Nat
  | .add, l, r => some ((l + r) % 2 ^ 64)
  | .sub, l, r => some ((l + 2 ^ 64 - r) % 2 ^ 64)
  | .mul, l, r => some ((l * r) % 2 ^ 64)
  | .div, l, r => if r = 0 then none else some (l / r)

/-- `Wrapping<i32>` arithmetic (wrapping division truncates toward
zero and only unwinds for a zero divisor). -/
def i32op : AOp → Int → Int → Option Int
  | .add, l, r => some (i32wrap (l + r))
  | .sub, l, r => some (i32wrap (l - r))
  | .mul, l, r => some (i32wrap (l * r))
  | .div, l, r => if r = 0 then none else some (i32wrap (l.tdiv r))

/-- `Wrapping<i64>` arithmetic. -/
def i64op : AOp → Int → Int → Option Int
  | .add, l, r => some (i64wrap (l + r))
  | .sub, l, r => some (i64wrap (l - r))
  | .mul, l, r => some (i64wrap (l * r))
  | .div, l, r => if r = 0 then none else some (i64wrap (l.tdiv r))

/-- The f64 bit pattern of the identity element passed to `apply_op!`:
`0.` for add and sub, `1.` for mul and div. -/
def idBits : AOp → Nat
  | .add | .sub => 0
  | .mul | .div => 4607182418800017408

/-- Embedding of the `apply_op!` macro (`value.rs` lines 591-753) with
the per-operator custom tail arms of the `Add`/`Sub`/`Mul`/`Div` impls
(lines 755-843).  `none` models an unwinding panic at the current level;
`Div` catches it at top level (`valueDiv`), so its recursive elementwise
and re-parse calls re-enter through the catch, as in the source where
`$op` expands to the full `Div::div`.  The fuel is an artifact bounding
the two non-structural recursions (string re-parse, scalar-to-array
promotion); `opFuel` suffices for every non-parse path. -/
def applyOpInner (P : PrimOps) (op : AOp) : Nat → Value → Value → Option Value
  | 0, _, _ => none
  | fuel+1, a, b =>
    let step : Value → Value → Option Value := fun x y =>
      match op with
      | .div => some ((applyOpInner P AOp.div fuel x y).getD
          (Value.Error errDivZero))
      | _ => applyOpInner P op fuel x y
    match a, b with
    | .U32 l, .U32 r | .U32 l, .V32 r | .V32 l, .U32 r | .V32 l, .V32 r =>
      (u32op op l r).map Value.U32
    | .I32 l, .I32 r | .I32 l, .Z32 r | .Z32 l, .I32 r | .Z32 l, .Z32 r =>
      (i32op op l r).map Value.I32
    | .U64 l, .U64 r | .U64 l, .V64 r | .V64 l, .U64 r | .V64 l, .V64 r =>
      (u64op op l r).map Value.U64
    | .I64 l, .I64 r | .I64 l, .Z64 r | .Z64 l, .I64 r | .Z64 l, .Z64 r =>
      (i64op op l r).map Value.I64
    | .F32 l, .F32 r => some (.F32 (P.f32op op l r))
    | .F64 l, .F64 r => some (.F64 (P.f64op op l r))
    | .Decimal l, .Decimal r => (P.decOp op l r).map Value.Decimal
    | .U32 l, .U64 r | .U32 l, .V64 r | .V32 l, .U64 r | .V32 l, .V64 r =>
      (u64op op l r).map Value.U64
    | .U64 l, .U32 r | .U64 l, .V32 r | .V64 l, .U32 r | .V64 l, .V32 r =>
      (u64op op l r).map Value.U64
    | .I32 l, .I64 r | .I32 l, .Z64 r | .Z32 l, .I64 r | .Z32 l, .Z64 r =>
      (i64op op l r).map Value.I64
    | .I32 l, .U32 r | .I32 l, .V32 r | .Z32 l, .U32 r | .Z32 l, .V32 r =>
      (i64op op l (r : Int)).map Value.I64
    | .U32 l, .I32 r | .U32 l, .Z32 r | .V32 l, .I32 r | .V32 l, .Z32 r =>
      (i64op op (l : Int) r).map Value.I64
    | .I64 l, .I32 r | .I64 l, .Z32 r | .Z64 l, .I32 r | .Z64 l, .Z32 r =>
      (i64op op l r).map Value.I64
    | .I64 l, .U32 r | .I64 l, .V32 r | .Z64 l, .U32 r | .Z64 l, .V32 r =>
      (i64op op l (r : Int)).map Value.I64
    | .U32 l, .I64 r | .U32 l, .Z64 r | .V32 l, .I64 r | .V32 l, .Z64 r =>
      (i64op op (l : Int) r).map Value.I64
    | .I64 l, .U64 r | .I64 l, .V64 r | .Z64 l, .U64 r | .Z64 l, .V64 r =>
      (i64op op l (i64wrap r)).map Value.I64
    | .U64 l, .I64 r | .U64 l, .Z64 r | .V64 l, .I64 r | .V64 l, .Z64 r =>
      (i64op op (i64wrap l) r).map Value.I64
    | .U64 l, .I32 r | .U64 l, .Z32 r | .V64 l, .I32 r | .V64 l, .Z32 r =>
      (i64op op (i64wrap l) r).map Value.I64
    | .I32 l, .U64 r | .I32 l, .V64 r | .Z32 l, .U64 r | .Z32 l, .V64 r =>
      (i64op op l (i64wrap r)).map Value.I64
    | .F32 l, .U32 r | .F32 l, .V32 r =>
      some (.F32 (P.f32op op l (P.natToF32 r)))
    | .U32 l, .F32 r | .V32 l, .F32 r =>
      some (.F32 (P.f32op op (P.natToF32 l) r))
    | .F32 l, .U64 r | .F32 l, .V64 r =>
      some (.F32 (P.f32op op l (P.natToF32 r)))
    | .U64 l, .F32 r | .V64 l, .F32 r =>
      some (.F32 (P.f32op op (P.natToF32 l) r))
    | .F32 l, .I32 r | .F32 l, .Z32 r =>
      some (.F32 (P.f32op op l (P.intToF32 r)))
    | .I32 l, .F32 r | .Z32 l, .F32 r =>
      some (.F32 (P.f32op op (P.intToF32 l) r))
    | .F32 l, .I64 r | .F32 l, .Z64 r =>
      some (.F32 (P.f32op op l (P.intToF32 r)))
    | .I64 l, .F32 r | .Z64 l, .F32 r =>
      some (.F32 (P.f32op op (P.intToF32 l) r))
    | .F32 l, .F64 r => some (.F64 (P.f64op op (P.f32toF64 l) r))
    | .F64 l, .U32 r | .F64 l, .V32 r =>
      some (.F64 (P.f64op op l (P.natToF64 r)))
    | .U32 l, .F64 r | .V32 l, .F64 r =>
      some (.F64 (P.f64op op (P.natToF64 l) r))
    | .F64 l, .U64 r | .F64 l, .V64 r =>
      some (.F64 (P.f64op op l (P.natToF64 r)))
    | .U64 l, .F64 r | .V64 l, .F64 r =>
      some (.F64 (P.f64op op (P.natToF64 l) r))
    | .F64 l, .I32 r | .F64 l, .Z32 r =>
      some (.F64 (P.f64op op l (P.intToF64 r)))
    | .I32 l, .F64 r | .Z32 l, .F64 r =>
      some (.F64 (P.f64op op (P.intToF64 l) r))
    | .F64 l, .I64 r | .F64 l, .Z64 r =>
      some (.F64 (P.f64op op l (P.intToF64 r)))
    | .I64 l, .F64 r | .Z64 l, .F64 r =>
      some (.F64 (P.f64op op (P.intToF64 l) r))
    | .F64 l, .F32 r => some (.F64 (P.f64op op l (P.f32toF64 r)))
    | .Decimal l, .U32 r | .Decimal l, .V32 r =>
      (P.decOp op l (P.decOfNat r)).map Value.Decimal
    | .U32 l, .Decimal r | .V32 l, .Decimal r =>
      (P.decOp op (P.decOfNat l) r).map Value.Decimal
    | .Decimal l, .U64 r | .Decimal l, .V64 r =>
      (P.decOp op l (P.decOfNat r)).map Value.Decimal
    | .U64 l, .Decimal r | .V64 l, .Decimal r =>
      (P.decOp op (P.decOfNat l) r).map Value.Decimal
    | .Decimal l, .I32 r | .Decimal l, .Z32 r =>
      (P.decOp op l (P.decOfInt r)).map Value.Decimal
    | .I32 l, .Decimal r | .Z32 l, .Decimal r =>
      (P.decOp op (P.decOfInt l) r).map Value.Decimal
    | .Decimal l, .I64 r | .Decimal l, .Z64 r =>
      (P.decOp op l (P.decOfInt r)).map Value.Decimal
    | .I64 l, .Decimal r | .Z64 l, .Decimal r =>
      (P.decOp op (P.decOfInt l) r).map Value.Decimal
    | .Decimal l, .F32 r =>
      match P.decTryOfF32 r with
      | some r2 => (P.decOp op l r2).map Value.Decimal
      | none => some (.Error (asciiBytes "can\x27t parse " ++ P.fmtF32 r
          ++ asciiBytes " as a decimal"))
    | .F32 l, .Decimal r =>
      match P.decTryOfF32 l with
      | some l2 => (P.decOp op l2 r).map Value.Decimal
      | none => some (.Error (asciiBytes "can\x27t parse " ++ P.fmtF32 l
          ++ asciiBytes " as a decimal"))
    | .Decimal l, .F64 r =>
      match P.decTryOfF64 r with
      | some r2 => (P.decOp op l r2).map Value.Decimal
      | none => some (.Error (asciiBytes "can\x27t parse " ++ P.fmtF64 r
          ++ asciiBytes " as a decimal"))
    | .F64 l, .Decimal r =>
      match P.decTryOfF64 l with
      | some l2 => (P.decOp op l2 r).map Value.Decimal
      | none => some (.Error (asciiBytes "can\x27t parse " ++ P.fmtF64 l
          ++ asciiBytes " as a decimal"))
    | .String s, n =>
      match P.parse s with
      | .error e => some (.Error e)
      | .ok w => step w n
    | n, .String s =>
      match P.parse s with
      | .error e => some (.Error e)
      | .ok w => step n w
    | .Array e0, .Array e1 =>
      let pq := if e0.length < e1.length then (e0, e1) else (e1, e0)
      let padded := pq.1 ++
        List.replicate (pq.2.length - pq.1.length) (Value.F64 (idBits op))
      (List.mapM (fun p : Value × Value => step p.1 p.2)
        (padded.zip pq.2)).map Value.Array
    | .Array e0, n =>
      match cast P n Typ.Array with
      | none => some (.Error (asciiBytes "can\x27t add to array"))
      | some r => step (.Array e0) r
    | n, .Array e1 =>
      match cast P n Typ.Array with
      | none => some (.Error (asciiBytes "can\x27t add to array"))
      | some l => step l (.Array e1)
    | .Bytes _, _ | _, .Bytes _ =>
      some (.Error (asciiBytes "can\x27t add bytes"))
    | .Null, _ | _, .Null =>
      some (.Error (asciiBytes "can\x27t add null"))
    | .Ok, _ | _, .Ok | .Error _, _ | _, .Error _ =>
      some (.Error (asciiBytes "can\x27t add result types"))
    | .True, n => step (.U32 1) n
    | n, .True => step n (.U32 1)
    | .False, n => step (.U32 0) n
    | n, .False => step n (.U32 0)
    | a, b =>
      match op with
      | .add =>
        match a, b with
        | .DateTime dt, .Duration d | .Duration d, .DateTime dt =>
          P.dtAddDur dt d
        | .Duration d0, .Duration d1 => (P.durAdd d0 d1).map Value.Duration
        | _, _ =>
          some (.Error (asciiBytes "can\x27t add to datetime/duration"))
      | .sub =>
        match a, b with
        | .DateTime dt, .Duration d | .Duration d, .DateTime dt =>
          P.dtSubDur dt d
        | .Duration d0, .Duration d1 => (P.durSub d0 d1).map Value.Duration
        | _, _ =>
          some (.Error (asciiBytes "can\x27t add to datetime/duration"))
      | .mul =>
        some (.Error (asciiBytes "can\x27t add to datetime/duration"))
      | .div =>
        match a, b with
        | .Duration d, .U32 s => (P.durDivU32 d s).map Value.Duration
        | .Duration d, .V32 s => (P.durDivU32 d s).map Value.Duration
        | .Duration d, .F32 s => (P.durDivF32 d s).map Value.Duration
        | .Duration d, .F64 s => (P.durDivF64 d s).map Value.Duration
        | _, _ =>
          some (.Error (asciiBytes "can\x27t add to datetime/duration"))

/-- One elementwise (or re-parse / promotion) call of the operator: for
`div` the recursive call re-enters through the top-level catch, for the
other operators a panic propagates. -/
def elemOp (P : PrimOps) (op : AOp) (fuel : Nat) (x y : Value) :
    Option Value :=
  match op with
  | .div => some ((applyOpInner P AOp.div fuel x y).getD
      (Value.Error errDivZero))
  | _ => applyOpInner P op fuel x y

/-- Canonical fuel for the operator embedding. -/
def opFuel (a b : Value) : Nat := vsize a + vsize b + 2

/-- `impl Add for Value`; `none` models an uncaught panic. -/
def valueAdd (P : PrimOps) (a b : Value) : Option Value :=
  applyOpInner P AOp.add (opFuel a b) a b

/-- `impl Sub for Value`. -/
def valueSub (P : PrimOps) (a b : Value) : Option Value :=
  applyOpInner P AOp.sub (opFuel a b) a b

/-- `impl Mul for Value`. -/
def valueMul (P : PrimOps) (a b : Value) : Option Value :=
  applyOpInner P AOp.mul (opFuel a b) a b

/-- `impl Div for Value` (`value.rs` lines 819-843): the whole operator
application runs inside `catch_unwind`, and an unwinding panic is turned
into `Error("can\x27t divide by zero")`. -/
def valueDiv (P : PrimOps) (a b : Value) : Value :=
  (applyOpInner P AOp.div (opFuel a b) a b).getD (Value.Error errDivZero)

/-- The eight integer constructors. -/
def isIntValue : Value → Bool
  | .U32 _ | .V32 _ | .I32 _ | .Z32 _
  | .U64 _ | .V64 _ | .I64 _ | .Z64 _ => true
  | _ => false

/-- The mathematical value of an integer payload. -/
def intPayload : Value → Int
  | .U32 n | .V32 n | .U64 n | .V64 n => (n : Int)
  | .I32 n | .Z32 n | .I64 n | .Z64 n => n
  | _ => 0

set_option maxHeartbeats 1000000 in
/-- Every integer-by-integer arm of the divison operator unwinds when the
divisor payload is zero: each of the sixty-four constructor combinations
reduces to a wrapped division that checks its divisor for zero. -/
theorem applyOpInner_div_int_zero (P : PrimOps) (fuel : Nat) (a b : Value)
    (ha : isIntValue a = true) (hb : isIntValue b = true)
    (h0 : intPayload b = 0) :
    applyOpInner P AOp.div (fuel+1) a b = none := by
  cases a <;> simp only [isIntValue, Bool.false_eq_true] at ha <;>
    cases b <;> simp only [isIntValue, Bool.false_eq_true] at hb <;>
    simp only [intPayload, Nat.cast_eq_zero] at h0 <;>
    subst h0 <;>
    rfl

/-- C3: division of values is total by construction (`valueDiv` returns a
`Value` for every pair, the `catch_unwind` turning any panic into an
`Error`); and whenever both operands are integer values and the divisor
payload is zero, the result is the `Error("can\x27t divide by zero")`
value produced by the catch handler, never an abort. -/
theorem c3_integer_div_by_zero_is_error (P : PrimOps) (a b : Value)
    (ha : isIntValue a = true) (hb : isIntValue b = true)
    (h0 : intPayload b = 0) :
    valueDiv P a b = Value.Error errDivZero := by
  have hstep := applyOpInner_div_int_zero P (vsize a + vsize b + 1) a b ha hb h0
  show (applyOpInner P AOp.div (opFuel a b) a b).getD (Value.Error errDivZero) = _
  have hfuel : opFuel a b = (vsize a + vsize b + 1) + 1 := rfl
  rw [hfuel, hstep]
  rfl

/-- C3 witness: `U32(7) / U32(0)` evaluates to the division-by-zero
error value. -/
theorem c3_integer_div_by_zero_is_error_witness :
    valueDiv defaultPrims (Value.U32 7) (Value.U32 0) =
      Value.Error errDivZero :=
  c3_integer_div_by_zero_is_error defaultPrims (Value.U32 7) (Value.U32 0)
    (by decide) (by decide) (by decide)

theorem mapM_map_option {α β γ : Type} (f : β → Option γ) (g : α → β) :
    ∀ l : List α, List.mapM f (l.map g) = List.mapM (fun x => f (g x)) l
  | [] => rfl
  | x :: xs => by
    simp only [List.map_cons, List.mapM_cons, mapM_map_option f g xs]

theorem mapM_length_option {α β : Type} (f : α → Option β) :
    ∀ (l : List α) (out : List β),
      List.mapM f l = some out → out.length = l.length
  | [], out => by
    simp only [List.mapM_nil]
    intro h
    simp only [pure, Option.some.injEq] at h
    rw [← h]
    rfl
  | x :: xs, out => by
    simp only [List.mapM_cons]
    cases hfx : f x with
    | none => simp [Option.bind]
    | some y =>
      cases hm : List.mapM f xs with
      | none => simp [Option.bind]
      | some ys =>
        intro h
        simp only [Option.bind_eq_bind, Option.some_bind, pure,
          Option.some.injEq] at h
        rw [← h]
        simp [mapM_length_option f xs ys hm]

/-- Zipping the padded shorter list against the longer one enumerates the
pairs `(s.getD i d, t.getD i d)` for `i < t.length`. -/
theorem zip_pad_eq_range (s t : List Value) (d : Value)
    (hle : s.length ≤ t.length) :
    (s ++ List.replicate (t.length - s.length) d).zip t =
      (List.range t.length).map (fun i => (s.getD i d, t.getD i d)) := by
  apply List.ext_getElem
  · simp only [List.length_zip, List.length_append, List.length_replicate,
      List.length_map, List.length_range]
    omega
  · intro i h1 h2
    have hlen : (s ++ List.replicate (t.length - s.length) d).length
        = t.length := by
      simp only [List.length_append, List.length_replicate]
      omega
    have hit : i < t.length := by
      simp only [List.length_zip, hlen, Nat.min_self] at h1
      exact h1
    have hib : i < (s ++ List.replicate (t.length - s.length) d).length := by
      omega
    have hpad : (s ++ List.replicate (t.length - s.length) d)[i] =
        s.getD i d := by
      by_cases hi : i < s.length
      · rw [List.getElem_append_left hi, List.getD_eq_getElem s d hi]
      · rw [List.getElem_append_right (by omega)]
        rw [List.getElem_replicate]
        rw [List.getD_eq_default s d (by omega)]
    rw [List.getElem_zip]
    simp only [List.getElem_map, List.getElem_range]
    rw [hpad, List.getD_eq_getElem t d hit]

set_option maxHeartbeats 1000000 in
/-- C5 amended: for every arithmetic operator, array-by-array application
is elementwise over pairs in which the *shorter* operand (the right one
when lengths are equal or the left one is longer) stands on the left,
padded with `Value::F64` of the identity (`0.` for add and sub, `1.` for
mul and div); the result has the length of the longer operand.  The
`elemOp` calls are the recursive operator applications of the source
(`v0 $op v1`). -/
theorem c5_array_op_pads_shorter_on_left (P : PrimOps) (op : AOp)
    (fuel : Nat) (a b : List Value) :
    applyOpInner P op (fuel+1) (.Array a) (.Array b) =
      (List.mapM (fun i => elemOp P op fuel
          ((if a.length < b.length then a else b).getD i
            (Value.F64 (idBits op)))
          ((if a.length < b.length then b else a).getD i
            (Value.F64 (idBits op))))
        (List.range (max a.length b.length))).map Value.Array ∧
    ∀ out, applyOpInner P op (fuel+1) (.Array a) (.Array b) =
        some (.Array out) → out.length = max a.length b.length := by
  have harm : applyOpInner P op (fuel+1) (.Array a) (.Array b) =
      (List.mapM (fun p : Value × Value => elemOp P op fuel p.1 p.2)
        (((if a.length < b.length then (a, b) else (b, a)).1 ++
          List.replicate ((if a.length < b.length then (a, b) else (b, a)).2.length -
            (if a.length < b.length then (a, b) else (b, a)).1.length)
            (Value.F64 (idBits op))).zip
          (if a.length < b.length then (a, b) else (b, a)).2)).map Value.Array := rfl
  have hmain : applyOpInner P op (fuel+1) (.Array a) (.Array b) =
      (List.mapM (fun i => elemOp P op fuel
          ((if a.length < b.length then a else b).getD i
            (Value.F64 (idBits op)))
          ((if a.length < b.length then b else a).getD i
            (Value.F64 (idBits op))))
        (List.range (max a.length b.length))).map Value.Array := by
    rw [harm]
    by_cases h : a.length < b.length
    · simp only [if_pos h]
      rw [zip_pad_eq_range a b (Value.F64 (idBits op)) (by omega)]
      rw [mapM_map_option]
      have hmax : max a.length b.length = b.length := by omega
      rw [hmax]
    · simp only [if_neg h]
      rw [zip_pad_eq_range b a (Value.F64 (idBits op)) (by omega)]
      rw [mapM_map_option]
      have hmax : max a.length b.length = a.length := by omega
      rw [hmax]
  refine ⟨hmain, ?_⟩
  intro out hout
  rw [hmain] at hout
  cases hm : List.mapM (fun i => elemOp P op fuel
      ((if a.length < b.length then a else b).getD i (Value.F64 (idBits op)))
      ((if a.length < b.length then b else a).getD i (Value.F64 (idBits op))))
      (List.range (max a.length b.length)) with
  | none =>
    rw [hm] at hout
    exact Option.noConfusion hout
  | some res =>
    rw [hm] at hout
    simp only [Option.map_some', Option.some.injEq, Value.Array.injEq] at hout
    have hlen := mapM_length_option _ _ res hm
    rw [← hout]
    simpa using hlen

/-- C5 witness: at `[I32 3] - [I32 1]` the length conjunct instantiates to
the concrete output `[I32 (-2)]`, whose length is `max 1 1`. -/
theorem c5_array_op_pads_shorter_on_left_witness :
    ([Value.I32 (-2)] : List Value).length =
      max ([Value.I32 3] : List Value).length
        ([Value.I32 1] : List Value).length :=
  (c5_array_op_pads_shorter_on_left defaultPrims AOp.sub 5
      [Value.I32 3] [Value.I32 1]).2 [Value.I32 (-2)] (by decide)

/-- C5 counterexample: the claim predicts `[I32 3] - [I32 1] =
[I32 3 - I32 1] = [I32 2]`; with equal lengths the code swaps the
operands and computes `[I32 1 - I32 3] = [I32 (-2)]`, which differs from
the claimed result both structurally and under the source equality. -/
theorem c5_counterexample :
    valueSub defaultPrims (Value.Array [Value.I32 3])
        (Value.Array [Value.I32 1]) =
      some (Value.Array [Value.I32 (-2)]) ∧
    valueSub defaultPrims (Value.I32 3) (Value.I32 1) =
      some (Value.I32 2) ∧
    Value.Array [Value.I32 (-2)] ≠ Value.Array [Value.I32 2] ∧
    valueEq defaultPrims (Value.Array [Value.I32 (-2)])
      (Value.Array [Value.I32 2]) = false := by
  refine ⟨?_, ?_, ?_, ?_⟩ <;> decide

end NetidxVal

namespace NetidxSub

open NetidxVal

/-- The connection ingress message relevant to `Dval::write`:
`ToCon::Write(id, value, receipt-sender)`; the receipt sender is
modelled by whether one is present. -/
inductive ToCon where
  | write (id : Nat) (v : Value) (receipt : Bool)
deriving DecidableEq

/-- A live `Val`: its subscription id, connection-side id, and the log of
messages sent on its connection channel. -/
structure ValS where
  subId : Nat
  id : Nat
  sent : List ToCon
deriving DecidableEq

/-- `Val::write` (`subscriber/mod.rs` lines 293-295): send
`ToCon::Write(id, v, None)` on the connection. -/
def valWrite (val : ValS) (v : Value) : ValS :=
  { val with sent := val.sent ++ [ToCon.write val.id v false] }

/-- `DvState` (`subscriber/mod.rs` lines 330-334): a durable subscription
is either subscribed to a live `Val` or dead with its queued writes,
retry count and next retry time (`DvDead`, lines 323-328). -/
inductive DvState where
  | subscribed (val : ValS)
  | dead (queuedWrites : List (Value × Bool)) (tries : Nat) (nextTry : Nat)
deriving DecidableEq

/-- `DvalInner` (`subscriber/mod.rs` lines 336-341). -/
structure DvalInner where
  subId : Nat
  sub : DvState
deriving DecidableEq

/-- Embedding of `Dval::write` (`subscriber/mod.rs` lines 470-482):
subscribed → forward to the connection and return `true`; dead → append
`(v, None)` to the queued writes and return `false`. -/
def dvalWrite (t : DvalInner) (v : Value) : Bool × DvalInner :=
  match t.sub with
  | .subscribed val => (true, { t with sub := .subscribed (valWrite val v) })
  | .dead q tr nt => (false, { t with sub := .dead (q ++ [(v, false)]) tr nt })

/-- C9: `Dval::write` returns `true` and sends exactly one
`ToCon::Write(id, v, None)` on the connection when subscribed; when dead
it returns `false` and appends `(v, None)` to the queued writes, leaving
`tries` and `next_try` unchanged. -/
theorem c9_dval_write_by_state (sid : Nat) (val : ValS)
    (q : List (Value × Bool)) (tr nt : Nat) (v : Value) :
    dvalWrite ⟨sid, DvState.subscribed val⟩ v =
      (true, ⟨sid, DvState.subscribed
        ⟨val.subId, val.id, val.sent ++ [ToCon.write val.id v false]⟩⟩) ∧
    dvalWrite ⟨sid, DvState.dead q tr nt⟩ v =
      (false, ⟨sid, DvState.dead (q ++ [(v, false)]) tr nt⟩) :=
  ⟨rfl, rfl⟩

end NetidxSub
